import Mathlib

/-! # threadpool: range splitter, chunk tasks, pool life cycle

A verification development for `threadpool.go` (package `threadpool`).

Go `int` is taken to be 64 bits wide.  An `int` is modelled by an `Int`, and the
arithmetic of `AddRangeTask` (`iTo-iFrom`, the division, `j += n`, `j+n`) wraps
around modulo `2^64` as it does in Go (`wrap`).  Go's `/` on `int` truncates
toward zero, which is `Int.tdiv`.  A statement that needs the absence of
overflow says so in a hypothesis (`NoOverflow`).
-/

namespace ThreadPool

/-! ## Go `int` -/

/-- The smallest `int` (64 bits, two's complement). -/
def minInt : Int := -9223372036854775808

/-- The largest `int`. -/
def maxInt : Int := 9223372036854775807

/-- The number `x` is the value of an `int`. -/
abbrev InRange (x : Int) : Prop := minInt ≤ x ∧ x ≤ maxInt

/-- The `int` that an arithmetic operation yields when its exact result is `x`:
the result wraps around modulo `2^64`. -/
def wrap (x : Int) : Int := (x - minInt) % 18446744073709551616 + minInt

/-! ## AddRangeTask: the chunk loop -/

/-- The loop `for j := iFrom; j < iTo; j += n` of `AddRangeTask`, returning the
bounds `(iFrom_, iTo_)` captured by the closures handed to `AddTask`, in
submission order.  `j + n` is an `int` addition, so it wraps.  One unit of fuel
is spent per evaluation of the loop condition; `none` means the fuel ran out
before the loop condition failed. -/
def AddRangeTask.loop (iTo n : Int) : Nat → Int → Option (List (Int × Int))
  | 0, _ => none
  | fuel + 1, j =>
    if j < iTo then
      let iFrom_ := j
      let iTo_ := if wrap (j + n) > iTo then iTo else wrap (j + n)
      (AddRangeTask.loop iTo n fuel (wrap (j + n))).map (fun rest => (iFrom_, iTo_) :: rest)
    else some []

/-- The chunk bounds submitted by `AddRangeTask(iFrom, iTo, task)` on a pool
with `threads` threads: `n := (iTo-iFrom)/t.NumberOfThreads()`, an `int`
subtraction and an `int` division (truncated toward zero), followed by the
loop.  A pool made by `NewThreadPool` has `threads ≥ 1`, so the division does
not panic. -/
def AddRangeTask.chunks (threads iFrom iTo : Int) (fuel : Nat) : Option (List (Int × Int)) :=
  let n := wrap ((wrap (iTo - iFrom)).tdiv threads)
  AddRangeTask.loop iTo n fuel iFrom

/-- The state of the loop of `AddRangeTask` after `k` iterations whose loop
condition held: the value of `j` and the chunks submitted so far.  `none` when
the loop has already ended before the `k`-th iteration. -/
def AddRangeTask.iter (iTo n : Int) : Nat → Int → Option (Int × List (Int × Int))
  | 0, j => some (j, [])
  | k + 1, j =>
    if j < iTo then
      let iFrom_ := j
      let iTo_ := if wrap (j + n) > iTo then iTo else wrap (j + n)
      (AddRangeTask.iter iTo n k (wrap (j + n))).map (fun r => (r.1, (iFrom_, iTo_) :: r.2))
    else none

/-- No `int` operation of `AddRangeTask(lo, hi, task)` on a pool with `threads`
threads overflows: the arguments are `int`s, `hi - lo` and the quotient
`n = (hi - lo) / threads` are `int`s, and whenever the body of the loop runs,
which it does at `j = lo + k * n` with `j < hi`, the sum `j + n` is an `int`. -/
def NoOverflow (threads lo hi : Int) : Prop :=
  InRange threads ∧ InRange lo ∧ InRange hi ∧ InRange (hi - lo) ∧
  InRange ((hi - lo).tdiv threads) ∧
  ∀ k : Nat, lo + k * (hi - lo).tdiv threads < hi →
    InRange (lo + k * (hi - lo).tdiv threads + (hi - lo).tdiv threads)

/-! ## The closure submitted for one chunk -/

/-- The loop `for i := iFrom_; i < iTo_; i++` inside the closure that
`AddRangeTask` submits.  The per-item function `task(i, threadIdx, erf)` is a
state transformer over the memory `σ` it can touch; `erf` is passed through
unchanged.  `i++` cannot overflow: it runs only when `i < iTo_`, and `iTo_` is an
`int`. -/
def chunkTask.loop {σ ε π : Type} (task : Int → Int → π → σ → Option ε × σ)
    (iTo_ : Int) (threadIdx : Int) (erf : π) (i : Int) (s : σ) : Option ε × σ :=
  if i < iTo_ then
    match task i threadIdx erf s with
    | (some err, s') => (some err, s')
    | (none, s') => chunkTask.loop task iTo_ threadIdx erf (i + 1) s'
  else (none, s)
termination_by (iTo_ - i).toNat
decreasing_by omega

/-- The closure `func(threadIdx int, erf func() error) error` built by
`AddRangeTask` for the chunk `[iFrom_, iTo_)`. -/
def chunkTask {σ ε π : Type} (task : Int → Int → π → σ → Option ε × σ)
    (iFrom_ iTo_ : Int) (threadIdx : Int) (erf : π) (s : σ) : Option ε × σ :=
  chunkTask.loop task iTo_ threadIdx erf iFrom_ s

/-- Instrumentation of a per-item function: every call appends the three
arguments it was called with (index, worker index, probe) and the value it
returned to a log kept next to the memory. -/
def traced {σ ε π : Type} (task : Int → Int → π → σ → Option ε × σ) :
    Int → Int → π → σ × List (Int × Int × π × Option ε) →
      Option ε × (σ × List (Int × Int × π × Option ε)) :=
  fun i threadIdx erf sl =>
    let r := task i threadIdx erf sl.1
    (r.1, (r.2, sl.2 ++ [(i, threadIdx, erf, r.1)]))

/-- The indices `a, a+1, ..., b-1` of the half-open range `[a, b)`. -/
def indices (a b : Int) : List Int :=
  (List.range (b - a).toNat).map (fun (k : Nat) => a + (k : Int))

/-- Sizes of a list of chunks. -/
def sizes (cs : List (Int × Int)) : List Int :=
  cs.map (fun c => c.2 - c.1)

/-! ## Closed forms used in the proofs about the chunk loop -/

/-- The loop of `AddRangeTask` computed on exact integers, without wrap-around;
`loop_eq_loopZ` shows that it is the loop of the code when nothing overflows. -/
def AddRangeTask.loopZ (iTo n : Int) : Nat → Int → Option (List (Int × Int))
  | 0, _ => none
  | fuel + 1, j =>
    if j < iTo then
      let iFrom_ := j
      let iTo_ := if j + n > iTo then iTo else j + n
      (AddRangeTask.loopZ iTo n fuel (j + n)).map (fun rest => (iFrom_, iTo_) :: rest)
    else some []

/-- The chunk bounds of `AddRangeTask` computed on exact integers. -/
def AddRangeTask.chunksZ (threads iFrom iTo : Int) (fuel : Nat) : Option (List (Int × Int)) :=
  let n := (iTo - iFrom).tdiv threads
  AddRangeTask.loopZ iTo n fuel iFrom

/-- The chunks the loop produces from `j` when it runs `k` more iterations. -/
def chunksSpec (iTo n : Int) : Nat → Int → List (Int × Int)
  | 0, _ => []
  | k + 1, j => (j, min (j + n) iTo) :: chunksSpec iTo n k (j + n)

/-- The number of iterations of the loop from `j`, for a step `n ≥ 1`. -/
def numChunks (iTo n j : Int) : Nat :=
  ((iTo - j + n - 1) / n).toNat

/-- The remainder absorbed by the last chunk, as a predicate of the input: the loop
ends with exactly `threads` chunks, all but the last of size
`(hi - lo) / threads`, the last of size `(hi - lo) / threads + (hi - lo) % threads`. -/
def RemainderAbsorbed (threads lo hi : Int) : Prop :=
  ∃ cs : List (Int × Int),
    (∃ fuel, AddRangeTask.chunks threads lo hi fuel = some cs) ∧
    (cs.length : Int) = threads ∧
    (∀ (k : Nat) (c : Int × Int), k + 1 < cs.length → cs[k]? = some c →
      c.2 - c.1 = (hi - lo) / threads) ∧
    (∀ c, cs.getLast? = some c → c.2 - c.1 = (hi - lo) / threads + (hi - lo) % threads)

/-- The statement that `threads` chunks of equal size are submitted, as a predicate of
the input: the loop ends with exactly `threads` chunks, each of size
`(hi - lo) / threads`. -/
def EvenSplit (threads lo hi : Int) : Prop :=
  ∃ cs : List (Int × Int),
    (∃ fuel, AddRangeTask.chunks threads lo hi fuel = some cs) ∧
    (cs.length : Int) = threads ∧
    ∀ c ∈ cs, c.2 - c.1 = (hi - lo) / threads

/-- The statement that `⌈(hi - lo) / n⌉` chunks are submitted, as a predicate of the
input: the loop ends with exactly `(hi - lo + n - 1) / n` chunks, where
`n = (hi - lo) / threads`. -/
def CeilCount (threads lo hi : Int) : Prop :=
  ∃ cs : List (Int × Int),
    (∃ fuel, AddRangeTask.chunks threads lo hi fuel = some cs) ∧
    (cs.length : Int) = (hi - lo + (hi - lo) / threads - 1) / ((hi - lo) / threads)

/-! ## The pool: tasks, channel, goroutines

The pool is modelled as a transition system.  A thread is the caller (thread
`0`) or one of the goroutines started by `Launch` (threads `1 .. threads-1`).
One transition is one operation on shared memory: a channel send, receive or
close, a `WaitGroup` operation, `getError`, `setError`, or the read of
`t.errmsg` in `Wait`.  The scheduler picks which thread moves next, so a run is
a list of thread numbers. -/

/-- What the body of a task does: it returns an error or `nil` (`ret`), or it
calls the probe `erf()` it was given and goes on with the value read
(`probe`). -/
inductive Proc (ε : Type) where
  | ret (err : Option ε) : Proc ε
  | probe (k : Option ε → Proc ε) : Proc ε

/-- A task `func(threadIdx int, erf func() error) error`: its body once the
thread index is known. -/
abbrev Task (ε : Type) := Int → Proc ε

/-- The channel `chan func(int, func() error) error`: the buffered items, oldest
first, each with the serial number of the `AddTask` call that sent it, the
capacity given to `make`, and whether `close` has been called. -/
structure Chan (ε : Type) where
  buf : List (Nat × Task ε)
  cap : Int
  closed : Bool

/-- Where a goroutine started by `Launch` stands. -/
inductive Worker (ε : Type) where
  /-- At `for task := range t.channel`. -/
  | range : Worker ε
  /-- Inside `task(i, t.getError)`, running the task with serial number `id`. -/
  | call (id : Nat) (p : Proc ε) : Worker ε
  /-- The task returned `err != nil`; about to run `t.setError(err)`. -/
  | seterr (err : ε) : Worker ε
  /-- The loop has ended and the deferred `t.wg.Done()` has run. -/
  | exited : Worker ε

/-- Where the caller stands: between two calls of the API, or inside `Wait`. -/
inductive Caller (ε : Type) where
  /-- Between two calls. -/
  | idle : Caller ε
  /-- At the `select` of the loop `LOOP` of `Wait`. -/
  | select : Caller ε
  /-- Inside `task(0, t.getError)`. -/
  | call (id : Nat) (p : Proc ε) : Caller ε
  /-- The task returned `err != nil`; about to run `t.setError(err)`. -/
  | seterr (err : ε) : Caller ε
  /-- About to run `close(t.channel)`. -/
  | close : Caller ε
  /-- About to run `t.wg.Done()`. -/
  | done : Caller ε
  /-- At `t.wg.Wait()`. -/
  | wait : Caller ε
  /-- About to run `err := t.errmsg`. -/
  | read : Caller ε
  /-- About to run `t.Launch()` and `return err`. -/
  | launch (err : Option ε) : Caller ε

/-- A call made by the caller. -/
inductive Op (ε : Type) where
  | AddTask (task : Task ε) : Op ε
  | Wait : Op ε

/-- History of one generation, kept for the statements only; no transition
reads it.  `submitted`: serial numbers of the tasks sent by `AddTask`, in order.
`tasks`: the arguments of the `AddTask` calls, each with its serial number, in
order.  `executed`: for each task call that returned, its serial number, the
thread index it ran with and the value it returned, in order of return.
`recorded`: the arguments of the `setError` calls, in order. -/
structure Log (ε : Type) where
  submitted : List Nat
  tasks : List (Nat × (Int → Proc ε))
  executed : List (Nat × Int × Option ε)
  recorded : List ε

/-- The struct `ThreadPool` (fields `threads`, `bufsize`, `channel`, `errmsg`,
`wg`; `errmtx` makes `getError` and `setError` single transitions), the
goroutines started by the last `Launch` (the goroutine with thread index `i`
is at position `i - 1`), the caller with the calls it still has to make,
whether some thread has panicked, and the history (`nextId`, `log`,
`finished`: the log of each finished generation with the value `Wait`
returned). -/
structure State (ε : Type) where
  threads : Int
  bufsize : Int
  channel : Chan ε
  errmsg : Option ε
  wg : Int
  workers : List (Worker ε)
  caller : Caller ε
  prog : List (Op ε)
  panicked : Bool
  nextId : Nat
  log : Log ε
  finished : List (Log ε × Option ε)

/-- `Launch`: a new channel of capacity `bufsize`, `errmsg = nil`, `wg.Add(n)`,
and `n - 1` goroutines with thread indices `1 .. n-1`, each starting at its
`range` loop.  `Launch` runs only when no goroutine of an earlier generation is
left (`Wait` calls it after `wg.Wait()`), so the new goroutines replace the
old list. -/
def Launch {ε : Type} (t : State ε) : State ε :=
  let n := t.threads
  { t with
    channel := { buf := [], cap := t.bufsize, closed := false }
    errmsg := none
    wg := t.wg + n
    workers := List.replicate (n - 1).toNat Worker.range }

/-- `NewThreadPool(threads, bufsize)`: a panic is the `error` result. -/
def NewThreadPool {ε : Type} (threads bufsize : Int) : Except String (State ε) :=
  if threads < 1 then
    .error "invalid number of threads"
  else if bufsize < 1 then
    .error "invalid bufsize"
  else
    .ok (Launch
      { threads := threads
        bufsize := bufsize
        channel := { buf := [], cap := 0, closed := false }
        errmsg := none
        wg := 0
        workers := []
        caller := Caller.idle
        prog := []
        panicked := false
        nextId := 0
        log := { submitted := [], tasks := [], executed := [], recorded := [] }
        finished := [] })

/-- `setError(err)`: `t.errmsg = err` under the write lock. -/
def setError {ε : Type} (t : State ε) (err : ε) : State ε :=
  { t with errmsg := some err, log := { t.log with recorded := t.log.recorded ++ [err] } }

/-- `getError()`: the value of `t.errmsg` under the read lock. -/
def getError {ε : Type} (t : State ε) : Option ε :=
  t.errmsg

/-- One transition of the caller: `AddTask` (lines 51-53) and `Wait`
(lines 74-92). -/
def stepCaller {ε : Type} (s : State ε) : Option (State ε) :=
  match s.caller with
  | .idle =>
    match s.prog with
    | [] => none
    | .AddTask task :: rest =>
      -- `t.channel <- task`
      if s.channel.closed then some { s with panicked := true }
      else if (s.channel.buf.length : Int) < s.channel.cap then
        some { s with
          channel := { s.channel with buf := s.channel.buf ++ [(s.nextId, task)] }
          prog := rest
          nextId := s.nextId + 1
          log := { s.log with
            submitted := s.log.submitted ++ [s.nextId]
            tasks := s.log.tasks ++ [(s.nextId, task)] } }
      else none
    | .Wait :: rest => some { s with caller := .select, prog := rest }
  | .select =>
    match s.channel.buf with
    | (id, task) :: rest =>
      -- `case task := <-t.channel`
      some { s with channel := { s.channel with buf := rest }, caller := .call id (task 0) }
    | [] =>
      -- a closed channel yields a nil task, and calling it panics
      if s.channel.closed then some { s with panicked := true }
      -- `default: break LOOP`
      else some { s with caller := .close }
  | .call id (.probe k) => some { s with caller := .call id (k (getError s)) }
  | .call id (.ret none) =>
    some { s with
      caller := .select
      log := { s.log with executed := s.log.executed ++ [(id, 0, none)] } }
  | .call id (.ret (some err)) =>
    some { s with
      caller := .seterr err
      log := { s.log with executed := s.log.executed ++ [(id, 0, some err)] } }
  | .seterr err => some { setError s err with caller := .select }
  | .close =>
    if s.channel.closed then some { s with panicked := true }
    else some { s with channel := { s.channel with closed := true }, caller := .done }
  | .done =>
    if s.wg - 1 < 0 then some { s with panicked := true }
    else some { s with wg := s.wg - 1, caller := .wait }
  | .wait => if s.wg = 0 then some { s with caller := .read } else none
  | .read => some { s with caller := .launch s.errmsg }
  | .launch err =>
    some { Launch s with
      caller := .idle
      log := { submitted := [], tasks := [], executed := [], recorded := [] }
      finished := s.finished ++ [(s.log, err)] }

/-- One transition of the goroutine at position `i`, whose thread index is `i + 1`
(lines 112-119). -/
def stepWorker {ε : Type} (s : State ε) (i : Nat) : Option (State ε) :=
  match s.workers[i]? with
  | none => none
  | some .range =>
    match s.channel.buf with
    | (id, task) :: rest =>
      some { s with
        channel := { s.channel with buf := rest }
        workers := s.workers.set i (.call id (task ((i : Int) + 1))) }
    | [] =>
      if s.channel.closed then
        -- the loop ends; deferred `t.wg.Done()`
        if s.wg - 1 < 0 then some { s with panicked := true }
        else some { s with wg := s.wg - 1, workers := s.workers.set i .exited }
      else none
  | some (.call id (.probe k)) =>
    some { s with workers := s.workers.set i (.call id (k (getError s))) }
  | some (.call id (.ret none)) =>
    some { s with
      workers := s.workers.set i .range
      log := { s.log with executed := s.log.executed ++ [(id, (i : Int) + 1, none)] } }
  | some (.call id (.ret (some err))) =>
    some { s with
      workers := s.workers.set i (.seterr err)
      log := { s.log with executed := s.log.executed ++ [(id, (i : Int) + 1, some err)] } }
  | some (.seterr err) => some { setError s err with workers := s.workers.set i .range }
  | some .exited => none

/-- One transition of thread `tid`; `none` when that thread cannot move (it is
blocked, it has ended, or the program has panicked). -/
def step {ε : Type} (s : State ε) (tid : Nat) : Option (State ε) :=
  if s.panicked then none
  else
    match tid with
    | 0 => stepCaller s
    | i + 1 => stepWorker s i

/-- The run that follows a schedule; `none` when the schedule picks a thread that
cannot move. -/
def run {ε : Type} (s : State ε) : List Nat → Option (State ε)
  | [] => some s
  | tid :: rest =>
    match step s tid with
    | none => none
    | some s' => run s' rest

/-- The pool returned by `NewThreadPool(threads, bufsize)`, with the calls the caller
goes on to make. -/
def start {ε : Type} (threads bufsize : Int) (prog : List (Op ε)) : Except String (State ε) :=
  (NewThreadPool threads bufsize).map (fun t => { t with prog := prog })

/-! ## Quantities used in the statements about the pool -/

/-- `1` for a goroutine that has not ended, `0` for one that has. -/
def Worker.alive {ε : Type} : Worker ε → Nat
  | .exited => 0
  | _ => 1

/-- The number of goroutines that have not ended. -/
def aliveCount {ε : Type} (ws : List (Worker ε)) : Nat :=
  (ws.map Worker.alive).sum

/-- The caller has not yet run the `t.wg.Done()` of the current generation. -/
def Caller.holdsWg {ε : Type} : Caller ε → Bool
  | .wait | .read | .launch _ => false
  | _ => true

/-- The caller has left the loop `LOOP` of `Wait`. -/
def Caller.pastLoop {ε : Type} : Caller ε → Bool
  | .close | .done | .wait | .read | .launch _ => true
  | _ => false

/-- The caller has run `close(t.channel)`. -/
def Caller.afterClose {ε : Type} : Caller ε → Bool
  | .done | .wait | .read | .launch _ => true
  | _ => false

/-- The caller has come back from `t.wg.Wait()`. -/
def Caller.joined {ε : Type} : Caller ε → Bool
  | .read | .launch _ => true
  | _ => false

/-- What holds of the control state in every reachable state. -/
structure InvA {ε : Type} (s : State ε) : Prop where
  notPanicked : s.panicked = false
  wg_eq : s.wg = (aliveCount s.workers : Int) + (if s.caller.holdsWg then 1 else 0)
  closed_eq : s.channel.closed = s.caller.afterClose
  drained : s.caller.pastLoop = true → s.channel.buf = []
  exited_closed : aliveCount s.workers < s.workers.length → s.channel.closed = true
  joined : s.caller.joined = true → aliveCount s.workers = 0
  read_err : ∀ err, s.caller = .launch err → err = s.errmsg
  cap_eq : s.channel.cap = s.bufsize
  bufsize_pos : 1 ≤ s.bufsize
  threads_pos : 1 ≤ s.threads
  workers_len : (s.workers.length : Int) = s.threads - 1
  buf_le : (s.channel.buf.length : Int) ≤ s.channel.cap

/-- The serial number of the task a goroutine is running, if any. -/
def Worker.inflight {ε : Type} : Worker ε → List Nat
  | .call id _ => [id]
  | _ => []

/-- The serial number of the task the caller is running, if any. -/
def Caller.inflight {ε : Type} : Caller ε → List Nat
  | .call id _ => [id]
  | _ => []

/-- The error a goroutine has got back from a task and not yet passed to `setError`. -/
def Worker.pending {ε : Type} : Worker ε → List ε
  | .seterr err => [err]
  | _ => []

/-- The error the caller has got back from a task and not yet passed to `setError`. -/
def Caller.pending {ε : Type} : Caller ε → List ε
  | .seterr err => [err]
  | _ => []

/-- The serial numbers of the tasks the goroutines are running. -/
def winf {ε : Type} (ws : List (Worker ε)) : Multiset Nat :=
  (ws.map (fun w => (w.inflight : Multiset Nat))).sum

/-- The errors the goroutines have got back and not yet passed to `setError`. -/
def wpend {ε : Type} (ws : List (Worker ε)) : Multiset ε :=
  (ws.map (fun w => (w.pending : Multiset ε))).sum

/-- The serial numbers of the task calls that have returned, in order of return. -/
def Log.ids {ε : Type} (l : Log ε) : List Nat :=
  l.executed.map (fun x => x.1)

/-- The errors returned by the task calls that returned one, in order of return. -/
def Log.errors {ε : Type} (l : Log ε) : List ε :=
  l.executed.filterMap (fun x => x.2.2)

/-- What holds of a finished generation with log `g.1` whose `Wait` returned `g.2`:
`Wait` returned the argument of the last `setError` call (`none` if there was
none); the task calls that returned are, up to order, the tasks submitted, and
no serial number was submitted twice; the `setError` calls are, up to order,
the errors returned by task calls. -/
def Good {ε : Type} (g : Log ε × Option ε) : Prop :=
  g.2 = g.1.recorded.getLast? ∧ g.1.ids.Perm g.1.submitted ∧ g.1.submitted.Nodup ∧
    g.1.errors.Perm g.1.recorded

/-- What holds of the history in every reachable state. -/
structure InvB {ε : Type} (s : State ε) : Prop where
  last_write : s.errmsg = s.log.recorded.getLast?
  tasks : (s.log.submitted : Multiset Nat)
    = (s.log.ids : Multiset Nat) + (s.caller.inflight : Multiset Nat) + winf s.workers
      + ((s.channel.buf.map Prod.fst : List Nat) : Multiset Nat)
  fresh : ∀ id ∈ s.log.submitted, id < s.nextId
  nodup : s.log.submitted.Nodup
  errs : (s.log.errors : Multiset ε)
    = (s.log.recorded : Multiset ε) + (s.caller.pending : Multiset ε) + wpend s.workers
  past : ∀ g ∈ s.finished, Good g
  fifo : s.threads = 1 →
    s.log.submitted = s.log.ids ++ s.caller.inflight ++ s.channel.buf.map Prod.fst ∧
    s.log.errors = s.log.recorded ++ s.caller.pending
  pastFifo : s.threads = 1 →
    ∀ g ∈ s.finished, g.1.ids = g.1.submitted ∧ g.1.errors = g.1.recorded

/-- The values a task body can return: `Returns p r` when `p` ends with `r` for
some values read by its calls of the probe. -/
inductive Proc.Returns {ε : Type} : Proc ε → Option ε → Prop where
  | ret (r : Option ε) : Proc.Returns (.ret r) r
  | probe (k : Option ε → Proc ε) (o r : Option ε) :
    Proc.Returns (k o) r → Proc.Returns (.probe k) r

/-- The entry `x` of `executed` is a return of a task of `tasks`: the task
submitted under the serial number `x.1`, called with the thread index `x.2.1`,
one of `0 .. threads-1`, can return `x.2.2`. -/
def Ran {ε : Type} (threads : Int) (tasks : List (Nat × Task ε))
    (x : Nat × Int × Option ε) : Prop :=
  ∃ task, (x.1, task) ∈ tasks ∧ Proc.Returns (task x.2.1) x.2.2 ∧ 0 ≤ x.2.1 ∧ x.2.1 < threads

/-- The thread with index `idx` is inside the task submitted under the serial
number `id`: what is left of the body, `p`, returns only what `task idx` can
return. -/
def Running {ε : Type} (tasks : List (Nat × Task ε)) (idx : Int) (id : Nat) (p : Proc ε) :
    Prop :=
  ∃ task, (id, task) ∈ tasks ∧ ∀ r, Proc.Returns p r → Proc.Returns (task idx) r

/-- A goroutine at position `i` that is inside a task is inside a submitted task,
called with thread index `i + 1`. -/
def Worker.ok {ε : Type} (tasks : List (Nat × Task ε)) (i : Nat) : Worker ε → Prop
  | .call id p => Running tasks ((i : Int) + 1) id p
  | _ => True

/-- The caller, when inside a task, is inside a submitted task, called with
thread index `0`. -/
def Caller.ok {ε : Type} (tasks : List (Nat × Task ε)) : Caller ε → Prop
  | .call id p => Running tasks 0 id p
  | _ => True

/-- The arguments of the `AddTask` calls of a list of calls, in order. -/
def progTasks {ε : Type} : List (Op ε) → List (Task ε)
  | [] => []
  | .AddTask task :: rest => task :: progTasks rest
  | .Wait :: rest => progTasks rest

/-- The tasks submitted in the generations that have ended, in order. -/
def tasksBefore {ε : Type} (gs : List (Log ε × Option ε)) : List (Task ε) :=
  (gs.map (fun g => g.1.tasks.map Prod.snd)).flatten

/-- What ties the history to the tasks, in every reachable state of a run whose
calls submit the tasks `P`: the serial numbers of `tasks` are `submitted`; what
is in the channel was submitted; a thread inside a task is inside a submitted
task, called with its own thread index; every entry of `executed` is a return
of the submitted task of that serial number at the thread index of the entry;
the same for the generations that have ended; and the tasks submitted so far,
followed by those still to submit, are `P`. -/
structure InvT {ε : Type} (P : List (Task ε)) (s : State ε) : Prop where
  ids : s.log.tasks.map Prod.fst = s.log.submitted
  buf : ∀ x ∈ s.channel.buf, x ∈ s.log.tasks
  caller : s.caller.ok s.log.tasks
  workers : ∀ (i : Nat) (w : Worker ε), s.workers[i]? = some w → Worker.ok s.log.tasks i w
  executed : ∀ x ∈ s.log.executed, Ran s.threads s.log.tasks x
  past : ∀ g ∈ s.finished,
    g.1.tasks.map Prod.fst = g.1.submitted ∧ ∀ x ∈ g.1.executed, Ran s.threads g.1.tasks x
  prog : tasksBefore s.finished ++ s.log.tasks.map Prod.snd ++ progTasks s.prog = P

/-- The caller is between two calls. -/
def Caller.isIdle {ε : Type} : Caller ε → Bool
  | .idle => true
  | _ => false

/-- The calls still to make never find the channel full when nobody else receives:
with `room` free places now and `cap` free places after each `Wait`, every
`AddTask` finds a free place. -/
def fits {ε : Type} (cap : Int) : Int → List (Op ε) → Bool
  | _, [] => true
  | room, .AddTask _ :: rest => decide (0 < room) && fits cap (room - 1) rest
  | _, .Wait :: rest => fits cap cap rest

/-- The number of calls of `Wait` in a list of calls. -/
def countWaits {ε : Type} : List (Op ε) → Nat
  | [] => 0
  | .AddTask _ :: rest => countWaits rest
  | .Wait :: rest => countWaits rest + 1

/-- The number of calls of `AddTask` in a list of calls. -/
def countAdds {ε : Type} : List (Op ε) → Nat
  | [] => 0
  | .AddTask _ :: rest => countAdds rest + 1
  | .Wait :: rest => countAdds rest

/-- The number of tasks submitted in the generations that have ended. -/
def submittedBefore {ε : Type} (gs : List (Log ε × Option ε)) : Nat :=
  (gs.map (fun g => g.1.submitted.length)).sum

/-- What holds of the calls still to make in every reachable state of a run whose
calls contain `N` calls of `Wait` and `M` calls of `AddTask` and, on a pool with
one thread, fit the channel: they still fit; every `Wait` has returned, is
running or is still to be called; every `AddTask` has submitted one task or is
still to be called. -/
structure InvC {ε : Type} (N M : Nat) (s : State ε) : Prop where
  fit : s.threads = 1 →
    fits s.bufsize
      (if s.caller.isIdle then s.bufsize - (s.channel.buf.length : Int) else s.bufsize)
      s.prog = true
  waits : s.finished.length + countWaits s.prog + (if s.caller.isIdle then 0 else 1) = N
  adds : submittedBefore s.finished + s.log.submitted.length + countAdds s.prog = M

/-- The program has come to its end: the caller is between two calls and has no
call left to make. -/
def State.finishedRun {ε : Type} (s : State ε) : Prop :=
  s.caller.isIdle = true ∧ s.prog = []

/-- Progress of a goroutine between two receptions: `w'` comes after `w`. -/
inductive Worker.Lt {ε : Type} : Worker ε → Worker ε → Prop where
  | probe (id : Nat) (k : Option ε → Proc ε) (o : Option ε) :
    Worker.Lt (.call id (k o)) (.call id (.probe k))
  | retNone (id : Nat) : Worker.Lt .range (.call id (.ret none))
  | retSome (id : Nat) (err : ε) : Worker.Lt (.seterr err) (.call id (.ret (some err)))
  | seterr (err : ε) : Worker.Lt .range (.seterr err)
  | exit : Worker.Lt .exited .range

/-- Progress of the caller inside the loop of `Wait` between two receptions. -/
inductive Caller.Lt {ε : Type} : Caller ε → Caller ε → Prop where
  | probe (id : Nat) (k : Option ε → Proc ε) (o : Option ε) :
    Caller.Lt (.call id (k o)) (.call id (.probe k))
  | retNone (id : Nat) : Caller.Lt .select (.call id (.ret none))
  | retSome (id : Nat) (err : ε) : Caller.Lt (.seterr err) (.call id (.ret (some err)))
  | seterr (err : ε) : Caller.Lt .select (.seterr err)

/-- One entry of the list has been replaced by a smaller one. -/
def ListLt {α : Type} (r : α → α → Prop) (ws' ws : List α) : Prop :=
  ∃ (i : Nat) (w w' : α), ws[i]? = some w ∧ r w' w ∧ ws' = ws.set i w'

/-- How far the caller is from the end of the call it is in. -/
def Caller.rank {ε : Type} : Caller ε → Nat
  | .idle => 0
  | .launch _ => 1
  | .read => 2
  | .wait => 3
  | .done => 4
  | .close => 5
  | _ => 6

/-- The measure that goes down at every transition: not yet panicked, calls left and
place in the current call, items in the channel, progress of each thread since
its last reception. -/
def measure {ε : Type} (s : State ε) : Nat × Nat × Nat × Caller ε × List (Worker ε) :=
  (if s.panicked then 0 else 1, 10 * s.prog.length + s.caller.rank, s.channel.buf.length,
    s.caller, s.workers)

/-- The order on measures. -/
def MeasureLt {ε : Type} :
    Nat × Nat × Nat × Caller ε × List (Worker ε) →
    Nat × Nat × Nat × Caller ε × List (Worker ε) → Prop :=
  Prod.Lex (· < ·) (Prod.Lex (· < ·) (Prod.Lex (· < ·)
    (Prod.GameAdd Caller.Lt (ListLt Worker.Lt))))

/-- `s'` is reached from `s` by one transition of some thread. -/
def Next {ε : Type} (s' s : State ε) : Prop :=
  ∃ tid, step s tid = some s'

/-! ## Programs used as instances -/

/-- A task that returns the error `n` without calling the probe. -/
def failWith (n : Nat) : Task Nat := fun _ => Proc.ret (some n)

/-- A task that returns `nil` without calling the probe. -/
def succeed : Task Nat := fun _ => Proc.ret none

/-- Two failing tasks and a `Wait`. -/
def demoTwoFailures : List (Op Nat) :=
  [Op.AddTask (failWith 1), Op.AddTask (failWith 2), Op.Wait]

/-- Two tasks and a `Wait`; the second task fails. -/
def demoOneFailure : List (Op Nat) :=
  [Op.AddTask succeed, Op.AddTask (failWith 5), Op.Wait]

/-- A failing cycle followed by a clean one. -/
def demoTwoCycles : List (Op Nat) :=
  [Op.AddTask (failWith 7), Op.Wait, Op.AddTask succeed, Op.Wait]

set_option maxHeartbeats 2000000
set_option linter.unusedTactic false
set_option linter.unreachableTactic false
set_option linter.unnecessarySeqFocus false

/-! ## Theorems: the chunk loop -/

theorem numChunks_of_le {iTo n j : Int} (hn : 1 ≤ n) (h : iTo ≤ j) : numChunks iTo n j = 0 := by
  unfold numChunks
  have h1 : (iTo - j + n - 1) / n ≤ 0 := by
    have : (iTo - j + n - 1) / n < 1 := by
      apply Int.ediv_lt_of_lt_mul (by omega)
      omega
    omega
  omega

theorem numChunks_step {iTo n j : Int} (hn : 1 ≤ n) (h : j < iTo) :
    numChunks iTo n j = numChunks iTo n (j + n) + 1 := by
  unfold numChunks
  have e : iTo - j + n - 1 = (iTo - (j + n) + n - 1) + n := by ring
  have h0 : 0 ≤ (iTo - (j + n) + n - 1) / n := Int.ediv_nonneg (by omega) (by omega)
  rw [e, Int.add_ediv_of_dvd_right (dvd_refl n), Int.ediv_self (by omega)]
  omega

theorem numChunks_bounds {iTo n j : Int} (hn : 1 ≤ n) (h : j < iTo) :
    ((numChunks iTo n j : Int) - 1) * n < iTo - j ∧ iTo - j ≤ (numChunks iTo n j : Int) * n ∧
      1 ≤ numChunks iTo n j := by
  unfold numChunks
  have h0 : 0 ≤ (iTo - j + n - 1) / n := Int.ediv_nonneg (by omega) (by omega)
  have h1 : 1 ≤ (iTo - j + n - 1) / n := by
    apply Int.le_ediv_of_mul_le (by omega)
    omega
  have e1 := Int.ediv_add_emod (iTo - j + n - 1) n
  have e2 := Int.emod_nonneg (iTo - j + n - 1) (show n ≠ 0 by omega)
  have e3 := Int.emod_lt_of_pos (iTo - j + n - 1) (show 0 < n by omega)
  rw [Int.toNat_of_nonneg h0]
  refine ⟨?_, ?_, by omega⟩ <;> nlinarith

theorem numChunks_le {iTo n j : Int} (hn : 1 ≤ n) : numChunks iTo n j ≤ (iTo - j).toNat := by
  by_cases h : j < iTo
  · obtain ⟨h1, -, h3⟩ := numChunks_bounds hn h
    have : ((numChunks iTo n j : Int) - 1) * 1 ≤ ((numChunks iTo n j : Int) - 1) * n :=
      Int.mul_le_mul_of_nonneg_left hn (by omega)
    omega
  · rw [numChunks_of_le hn (by omega)]; omega

theorem loop_eq_chunksSpec {iTo n : Int} (hn : 1 ≤ n) :
    ∀ (fuel : Nat) (j : Int), numChunks iTo n j < fuel →
      AddRangeTask.loopZ iTo n fuel j = some (chunksSpec iTo n (numChunks iTo n j) j) := by
  intro fuel
  induction fuel with
  | zero => intro j h; omega
  | succ fuel ih =>
    intro j h
    by_cases hj : j < iTo
    · have hs := numChunks_step hn hj
      have := ih (j + n) (by omega)
      simp only [AddRangeTask.loopZ, hj, if_true, this, Option.map_some', hs, chunksSpec]
      congr 2
      by_cases hc : j + n > iTo
      · simp [hc]; omega
      · simp [hc]; omega
    · have hz := numChunks_of_le hn (show iTo ≤ j by omega)
      simp [AddRangeTask.loopZ, hj, hz, chunksSpec]

theorem chunksSpec_length (iTo n : Int) : ∀ (k : Nat) (j : Int), (chunksSpec iTo n k j).length = k := by
  intro k
  induction k with
  | zero => intro j; rfl
  | succ k ih => intro j; simp [chunksSpec, ih]

theorem chunksSpec_getElem? (iTo n : Int) : ∀ (k : Nat) (j : Int) (i : Nat), i < k →
    (chunksSpec iTo n k j)[i]? = some (j + i * n, min (j + (i + 1) * n) iTo) := by
  intro k
  induction k with
  | zero => intro j i h; omega
  | succ k ih =>
    intro j i h
    cases i with
    | zero => simp [chunksSpec]
    | succ i =>
      simp only [chunksSpec, List.getElem?_cons_succ]
      rw [ih (j + n) i (by omega)]
      push_cast
      congr 2 <;> ring_nf

theorem indices_append {a b c : Int} (hab : a ≤ b) (hbc : b ≤ c) :
    indices a b ++ indices b c = indices a c := by
  unfold indices
  have e : (c - a).toNat = (b - a).toNat + (c - b).toNat := by omega
  rw [e, List.range_add, List.map_append, List.map_map]
  congr 1
  apply List.map_congr_left
  intro k _
  simp only [Function.comp]
  push_cast
  omega

theorem indices_of_le {a b : Int} (h : b ≤ a) : indices a b = [] := by
  unfold indices
  have : (b - a).toNat = 0 := by omega
  simp [this]

theorem chunksSpec_flatMap {iTo n : Int} (hn : 1 ≤ n) : ∀ (k : Nat) (j : Int),
    k = numChunks iTo n j →
      (chunksSpec iTo n k j).flatMap (fun c => indices c.1 c.2) = indices j iTo := by
  intro k
  induction k with
  | zero =>
    intro j h
    have hj : iTo ≤ j := by
      by_contra hc
      have := (numChunks_bounds hn (show j < iTo by omega)).2.2
      omega
    simp [chunksSpec, indices_of_le hj]
  | succ k ih =>
    intro j h
    have hj : j < iTo := by
      by_contra hc
      have := numChunks_of_le hn (show iTo ≤ j by omega)
      omega
    have hs := numChunks_step hn hj
    have := ih (j + n) (by omega)
    simp only [chunksSpec, List.flatMap_cons, this]
    by_cases hc : j + n ≤ iTo
    · rw [min_eq_left hc]
      exact indices_append (by omega) hc
    · rw [min_eq_right (by omega), indices_of_le (show iTo ≤ j + n by omega)]
      simp

/-- Shape of the chunk list for a step `n ≥ 1`: the loop ends, it submits
`K = numChunks` chunks, chunk `i` starts at `lo + i * n`, every chunk but the
last ends `n` further and the last ends at `hi`. -/
theorem chunks_shape (threads lo hi : Int) (hT : 1 ≤ threads) (hlt : lo < hi)
    (hn : 1 ≤ (hi - lo) / threads) :
    ∃ (cs : List (Int × Int)) (K : Nat),
      (∀ fuel, (hi - lo).toNat < fuel → AddRangeTask.chunksZ threads lo hi fuel = some cs) ∧
      cs.length = K ∧ 1 ≤ K ∧
      (K : Int) = (hi - lo + (hi - lo) / threads - 1) / ((hi - lo) / threads) ∧
      ((K : Int) - 1) * ((hi - lo) / threads) < hi - lo ∧
      hi - lo ≤ (K : Int) * ((hi - lo) / threads) ∧
      (∀ i : Nat, i + 1 < K →
        cs[i]? = some (lo + i * ((hi - lo) / threads), lo + (i + 1) * ((hi - lo) / threads))) ∧
      cs[K - 1]? = some (lo + ((K : Int) - 1) * ((hi - lo) / threads), hi) ∧
      cs.flatMap (fun c => indices c.1 c.2) = indices lo hi := by
  have hdiv : (hi - lo).tdiv threads = (hi - lo) / threads :=
    Int.tdiv_eq_ediv (by omega) (by omega)
  obtain ⟨b1, b2, b3⟩ := numChunks_bounds hn hlt
  refine ⟨chunksSpec hi ((hi - lo) / threads) (numChunks hi ((hi - lo) / threads) lo) lo,
    numChunks hi ((hi - lo) / threads) lo, ?_, chunksSpec_length _ _ _ _, b3, ?_, b1, b2, ?_, ?_,
    chunksSpec_flatMap hn _ _ rfl⟩
  · intro fuel hf
    unfold AddRangeTask.chunksZ
    simp only [hdiv]
    exact loop_eq_chunksSpec hn fuel lo (lt_of_le_of_lt (numChunks_le hn) hf)
  · unfold numChunks
    exact Int.toNat_of_nonneg (Int.ediv_nonneg (by omega) (by omega))
  · intro i hi'
    rw [chunksSpec_getElem? _ _ _ _ _ (by omega)]
    congr 2
    apply min_eq_left
    have : ((i : Int) + 1) * ((hi - lo) / threads)
        ≤ ((numChunks hi ((hi - lo) / threads) lo : Int) - 1) * ((hi - lo) / threads) :=
      Int.mul_le_mul_of_nonneg_right (by omega) (by omega)
    omega
  · rw [chunksSpec_getElem? _ _ _ _ _ (by omega)]
    have e : ((numChunks hi ((hi - lo) / threads) lo - 1 : Nat) : Int)
        = (numChunks hi ((hi - lo) / threads) lo : Int) - 1 := by omega
    rw [e]
    congr 2
    apply min_eq_right
    have : ((numChunks hi ((hi - lo) / threads) lo : Int) - 1 + 1) * ((hi - lo) / threads)
        = (numChunks hi ((hi - lo) / threads) lo : Int) * ((hi - lo) / threads) := by ring
    omega

/-- Every entry of a chunk list of the shape given by `chunks_shape` sits at an
index below `K`, starts at `lo + i * n`, and ends `n` further unless it is the
last one, which ends at `hi`. -/
theorem shape_elem {cs : List (Int × Int)} {K : Nat} {lo hi n : Int} (hlen : cs.length = K)
    (h1 : ∀ i : Nat, i + 1 < K → cs[i]? = some (lo + i * n, lo + (i + 1) * n))
    (h2 : cs[K - 1]? = some (lo + ((K : Int) - 1) * n, hi))
    (i : Nat) (c : Int × Int) (h : cs[i]? = some c) :
    i < K ∧ c.1 = lo + i * n ∧
      ((i + 1 < K ∧ c.2 = lo + (i + 1) * n) ∨ (i + 1 = K ∧ c.2 = hi)) := by
  have hi' : i < K := by
    rw [← hlen]
    by_contra hc
    rw [List.getElem?_eq_none (by omega)] at h
    cases h
  refine ⟨hi', ?_⟩
  by_cases hl : i + 1 < K
  · rw [h1 i hl] at h
    cases h
    exact ⟨rfl, Or.inl ⟨hl, rfl⟩⟩
  · have e : i = K - 1 := by omega
    rw [e, h2] at h
    cases h
    refine ⟨?_, Or.inr ⟨by omega, rfl⟩⟩
    have : (i : Int) = (K : Int) - 1 := by omega
    simp [this]

/-- On exact integers: the chunks chain from `lo` to `hi`, none is empty, every index
of `[lo, hi)` lies in exactly one. -/
theorem chunksZ_partitions (threads lo hi : Int) (hT : 1 ≤ threads) (hlt : lo < hi)
    (hge : threads ≤ hi - lo) :
    ∃ cs : List (Int × Int),
      (∀ fuel, (hi - lo).toNat < fuel → AddRangeTask.chunksZ threads lo hi fuel = some cs) ∧
      cs.head?.map Prod.fst = some lo ∧
      cs.getLast?.map Prod.snd = some hi ∧
      (∀ (k : Nat) (c d : Int × Int), cs[k]? = some c → cs[k + 1]? = some d → c.2 = d.1) ∧
      (∀ c ∈ cs, c.1 < c.2) ∧
      (∀ x, lo ≤ x → x < hi → ∃! k : Nat, ∃ c, cs[k]? = some c ∧ c.1 ≤ x ∧ x < c.2) ∧
      cs.flatMap (fun c => indices c.1 c.2) = indices lo hi := by
  have hn : 1 ≤ (hi - lo) / threads := Int.le_ediv_of_mul_le (by omega) (by omega)
  obtain ⟨cs, K, hfuel, hlen, hK, -, b1, b2, h1, h2, hflat⟩ := chunks_shape threads lo hi hT hlt hn
  have el := shape_elem hlen h1 h2
  generalize (hi - lo) / threads = n at hn b1 b2 h1 h2 el
  refine ⟨cs, hfuel, ?_, ?_, ?_, ?_, ?_, hflat⟩
  · rw [List.head?_eq_getElem?]
    by_cases hk : 0 + 1 < K
    · rw [h1 0 hk]; simp
    · have : K - 1 = 0 := by omega
      rw [this] at h2
      have e : (K : Int) - 1 = 0 := by omega
      rw [h2, e]; simp
  · rw [List.getLast?_eq_getElem?, hlen, h2]; rfl
  · intro k c d hc hd
    obtain ⟨hk, -, hc2⟩ := el k c hc
    obtain ⟨hk', hd1, -⟩ := el (k + 1) d hd
    rcases hc2 with ⟨-, hc2⟩ | ⟨hc2, -⟩
    · rw [hc2, hd1]; push_cast; ring
    · omega
  · intro c hc
    obtain ⟨i, hi'⟩ := List.mem_iff_getElem?.1 hc
    obtain ⟨hk, hc1, hc2⟩ := el i c hi'
    rcases hc2 with ⟨-, hc2⟩ | ⟨hl, hc2⟩
    · rw [hc1, hc2]; linarith
    · have : (i : Int) = (K : Int) - 1 := by omega
      rw [hc1, hc2, this]; linarith
  · intro x hx1 hx2
    have q0 : 0 ≤ (x - lo) / n := Int.ediv_nonneg (by omega) (by omega)
    have e1 := Int.ediv_add_emod (x - lo) n
    have e2 := Int.emod_nonneg (x - lo) (show n ≠ 0 by omega)
    have e3 := Int.emod_lt_of_pos (x - lo) (show 0 < n by omega)
    have qK : (x - lo) / n < K := by
      by_contra hc
      have : (K : Int) * n ≤ (x - lo) / n * n :=
        Int.mul_le_mul_of_nonneg_right (by omega) (by omega)
      linarith
    have hq : (((x - lo) / n).toNat : Int) = (x - lo) / n := Int.toNat_of_nonneg q0
    refine ⟨((x - lo) / n).toNat, ?_, ?_⟩
    · by_cases hl : ((x - lo) / n).toNat + 1 < K
      · exact ⟨_, h1 _ hl, by simp only [hq]; linarith, by simp only [hq]; linarith⟩
      · have e : ((x - lo) / n).toNat = K - 1 := by omega
        have e' : (K : Int) - 1 = (x - lo) / n := by omega
        rw [e]
        exact ⟨_, h2, by simp only [e']; linarith, hx2⟩
    · rintro k ⟨c, hc, hc1, hc2⟩
      obtain ⟨hk, hc1', hc2'⟩ := el k c hc
      have up : x < lo + ((k : Int) + 1) * n := by
        rcases hc2' with ⟨-, h⟩ | ⟨hl, h⟩
        · rw [h] at hc2; exact hc2
        · have : (k : Int) + 1 = K := by omega
          rw [this]; linarith
      rw [hc1'] at hc1
      apply Int.ofNat_inj.1
      rw [hq]
      apply le_antisymm
      · by_contra hcon
        have : ((x - lo) / n + 1) * n ≤ (k : Int) * n :=
          Int.mul_le_mul_of_nonneg_right (by omega) (by omega)
        linarith
      · by_contra hcon
        have : ((k : Int) + 1) * n ≤ (x - lo) / n * n :=
          Int.mul_le_mul_of_nonneg_right (by omega) (by omega)
        linarith

/-- On exact integers: when `threads` divides `hi - lo`, exactly `threads` chunks of
equal size. -/
theorem chunksZ_divisible (threads lo hi : Int) (hT : 1 ≤ threads) (hlt : lo < hi)
    (hdvd : threads ∣ hi - lo) :
    ∃ cs : List (Int × Int),
      (∀ fuel, (hi - lo).toNat < fuel → AddRangeTask.chunksZ threads lo hi fuel = some cs) ∧
      (cs.length : Int) = threads ∧
      ∀ c ∈ cs, c.2 - c.1 = (hi - lo) / threads := by
  have hmul : (hi - lo) / threads * threads = hi - lo := Int.ediv_mul_cancel hdvd
  have hn : 1 ≤ (hi - lo) / threads := by
    by_contra hc
    have : (hi - lo) / threads * threads ≤ 0 * threads :=
      Int.mul_le_mul_of_nonneg_right (by omega) (by omega)
    omega
  obtain ⟨cs, K, hfuel, hlen, hK, -, b1, b2, h1, h2, -⟩ := chunks_shape threads lo hi hT hlt hn
  have el := shape_elem hlen h1 h2
  generalize (hi - lo) / threads = n at hn b1 b2 h1 h2 el hmul
  have hKT : (K : Int) = threads := by
    apply le_antisymm
    · by_contra hc
      have : threads * n ≤ ((K : Int) - 1) * n :=
        Int.mul_le_mul_of_nonneg_right (by omega) (by omega)
      linarith
    · by_contra hc
      have : ((K : Int) + 1) * n ≤ threads * n :=
        Int.mul_le_mul_of_nonneg_right (by omega) (by omega)
      linarith
  refine ⟨cs, hfuel, by rw [hlen]; exact hKT, ?_⟩
  intro c hc
  obtain ⟨i, hi'⟩ := List.mem_iff_getElem?.1 hc
  obtain ⟨hk, hc1, hc2⟩ := el i c hi'
  rcases hc2 with ⟨-, hc2⟩ | ⟨hl, hc2⟩
  · rw [hc1, hc2]; ring
  · have : (i : Int) = threads - 1 := by omega
    rw [hc1, hc2, this]; linarith

/-- On exact integers: number and sizes of the chunks for a step `n ≥ 1`. -/
theorem chunksZ_chunk_count (threads lo hi : Int) (hT : 1 ≤ threads) (hlt : lo < hi)
    (hn : 1 ≤ (hi - lo) / threads) :
    ∃ cs : List (Int × Int),
      (∀ fuel, (hi - lo).toNat < fuel → AddRangeTask.chunksZ threads lo hi fuel = some cs) ∧
      (cs.length : Int) = (hi - lo + (hi - lo) / threads - 1) / ((hi - lo) / threads) ∧
      ((cs.length : Int) - 1) * ((hi - lo) / threads) < hi - lo ∧
      hi - lo ≤ (cs.length : Int) * ((hi - lo) / threads) ∧
      (∀ (k : Nat) (c : Int × Int), k + 1 < cs.length → cs[k]? = some c →
        c.2 - c.1 = (hi - lo) / threads) ∧
      (∀ c, cs.getLast? = some c → 1 ≤ c.2 - c.1 ∧ c.2 - c.1 ≤ (hi - lo) / threads) ∧
      (∀ c ∈ cs, c.2 - c.1 ≤ (hi - lo) / threads) ∧
      (¬ threads ∣ hi - lo → threads < cs.length ∧ (cs.length : Int) ≤ 2 * threads - 1) := by
  obtain ⟨cs, K, hfuel, hlen, hK, hKe, b1, b2, h1, h2, -⟩ := chunks_shape threads lo hi hT hlt hn
  have el := shape_elem hlen h1 h2
  have e1 := Int.ediv_add_emod (hi - lo) threads
  have e2 := Int.emod_nonneg (hi - lo) (show threads ≠ 0 by omega)
  have e3 := Int.emod_lt_of_pos (hi - lo) (show 0 < threads by omega)
  have e4 : ¬ threads ∣ hi - lo → (hi - lo) % threads ≠ 0 :=
    fun h hc => h (Int.dvd_of_emod_eq_zero hc)
  generalize (hi - lo) % threads = r at e1 e2 e3 e4
  refine ⟨cs, hfuel, ?_, ?_, ?_, ?_, ?_, ?_, ?_⟩
  · rw [hlen]; exact hKe
  · rw [hlen]; exact b1
  · rw [hlen]; exact b2
  · rw [hlen]
    intro k c hk hc
    obtain ⟨-, hc1, hc2⟩ := el k c hc
    rcases hc2 with ⟨-, hc2⟩ | ⟨hl, -⟩
    · rw [hc1, hc2]; ring
    · omega
  · intro c hc
    rw [List.getLast?_eq_getElem?, hlen, h2] at hc
    cases hc
    constructor <;> simp only <;> linarith
  · intro c hc
    obtain ⟨i, hi'⟩ := List.mem_iff_getElem?.1 hc
    obtain ⟨hk, hc1, hc2⟩ := el i c hi'
    rcases hc2 with ⟨-, hc2⟩ | ⟨hl, hc2⟩
    · rw [hc1, hc2]; linarith
    · have : (i : Int) = (K : Int) - 1 := by omega
      rw [hc1, hc2, this]; linarith
  · rw [hlen]
    intro hnd
    have hr := e4 hnd
    generalize (hi - lo) / threads = n at hn b1 b2 e1
    constructor
    · by_contra hc
      have : (K : Int) * n ≤ threads * n :=
        Int.mul_le_mul_of_nonneg_right (by omega) (by omega)
      have : threads * n = n * threads := by ring
      omega
    · by_contra hc
      have h5 : (2 * threads - 1) * n ≤ ((K : Int) - 1) * n :=
        Int.mul_le_mul_of_nonneg_right (by omega) (by omega)
      have h6 : (threads - 1) * 1 ≤ (threads - 1) * n :=
        Int.mul_le_mul_of_nonneg_left hn (by omega)
      have h7 : (2 * threads - 1) * n = threads * n + (threads - 1) * n := by ring
      have h8 : threads * n = n * threads := by ring
      omega

/-- On exact integers: when `threads` does not divide `hi - lo`, the remainder goes into
further chunks. -/
theorem chunksZ_remainder_extra_chunks (threads lo hi : Int) (hT : 1 ≤ threads)
    (hlt : lo < hi) (hge : threads ≤ hi - lo) (hnd : ¬ threads ∣ hi - lo) :
    ∃ cs : List (Int × Int),
      (∀ fuel, (hi - lo).toNat < fuel → AddRangeTask.chunksZ threads lo hi fuel = some cs) ∧
      (cs.length : Int)
        = threads + ((hi - lo) % threads + (hi - lo) / threads - 1) / ((hi - lo) / threads) ∧
      threads < cs.length ∧
      (∀ (k : Nat) (c : Int × Int), k + 1 < cs.length → cs[k]? = some c →
        c.2 - c.1 = (hi - lo) / threads) ∧
      (∀ c, cs.getLast? = some c → 1 ≤ c.2 - c.1 ∧ c.2 - c.1 ≤ (hi - lo) / threads) := by
  have hn : 1 ≤ (hi - lo) / threads := Int.le_ediv_of_mul_le (by omega) (by omega)
  obtain ⟨cs, K, hfuel, hlen, hK, hKe, b1, b2, h1, h2, -⟩ := chunks_shape threads lo hi hT hlt hn
  have el := shape_elem hlen h1 h2
  have e1 := Int.ediv_add_emod (hi - lo) threads
  have e2 := Int.emod_nonneg (hi - lo) (show threads ≠ 0 by omega)
  have e4 : (hi - lo) % threads ≠ 0 := fun hc => hnd (Int.dvd_of_emod_eq_zero hc)
  have hKe' : (K : Int)
      = threads + ((hi - lo) % threads + (hi - lo) / threads - 1) / ((hi - lo) / threads) := by
    rw [hKe]
    have : hi - lo + (hi - lo) / threads - 1
        = ((hi - lo) % threads + (hi - lo) / threads - 1) + threads * ((hi - lo) / threads) := by
      omega
    rw [this, Int.add_mul_ediv_right _ _ (by omega)]
    ring
  have hpos : 1 ≤ ((hi - lo) % threads + (hi - lo) / threads - 1) / ((hi - lo) / threads) :=
    Int.le_ediv_of_mul_le (by omega) (by omega)
  refine ⟨cs, hfuel, ?_, ?_, ?_, ?_⟩
  · rw [hlen]; exact hKe'
  · rw [hlen]; omega
  · rw [hlen]
    intro k c hk hc
    obtain ⟨-, hc1, hc2⟩ := el k c hc
    rcases hc2 with ⟨-, hc2⟩ | ⟨hl, -⟩
    · rw [hc1, hc2]; ring
    · omega
  · intro c hc
    rw [List.getLast?_eq_getElem?, hlen, h2] at hc
    cases hc
    constructor <;> simp only <;> linarith

/-! ## Theorems: the loop of the code and the loop on exact integers -/

theorem wrap_of_inRange {x : Int} (h : InRange x) : wrap x = x := by
  obtain ⟨h1, h2⟩ := h
  unfold wrap
  unfold minInt at *
  unfold maxInt at h2
  omega

/-- When no `j + n` overflows, the loop of the code computes what the loop on exact
integers computes. -/
theorem loop_eq_loopZ {lo iTo n : Int}
    (h : ∀ k : Nat, lo + k * n < iTo → InRange (lo + k * n + n)) :
    ∀ (fuel k : Nat),
      AddRangeTask.loop iTo n fuel (lo + k * n) = AddRangeTask.loopZ iTo n fuel (lo + k * n) := by
  intro fuel
  induction fuel with
  | zero => intro k; rfl
  | succ fuel ih =>
    intro k
    by_cases hj : lo + k * n < iTo
    · have e : lo + k * n + n = lo + ((k + 1 : Nat) : Int) * n := by push_cast; ring
      simp only [AddRangeTask.loop, AddRangeTask.loopZ, hj, if_true, wrap_of_inRange (h k hj)]
      rw [e, ih (k + 1)]
    · simp only [AddRangeTask.loop, AddRangeTask.loopZ, hj, if_false]

/-- When nothing overflows, `AddRangeTask` submits the chunks computed on exact
integers. -/
theorem chunks_eq_chunksZ {threads lo hi : Int} (hno : NoOverflow threads lo hi) (fuel : Nat) :
    AddRangeTask.chunks threads lo hi fuel = AddRangeTask.chunksZ threads lo hi fuel := by
  obtain ⟨-, -, -, h4, h5, h6⟩ := hno
  unfold AddRangeTask.chunks AddRangeTask.chunksZ
  simp only [wrap_of_inRange h4, wrap_of_inRange h5]
  have := loop_eq_loopZ h6 fuel 0
  simpa using this

/-- A sufficient condition for `NoOverflow`: `hi + (hi - lo)` is still an `int`. -/
theorem noOverflow_of_le {threads lo hi : Int} (hT : 1 ≤ threads) (hlt : lo < hi)
    (ht : threads ≤ maxInt) (hlo : minInt ≤ lo) (hhi : hi + (hi - lo) ≤ maxInt) :
    NoOverflow threads lo hi := by
  have hdiv : (hi - lo).tdiv threads = (hi - lo) / threads :=
    Int.tdiv_eq_ediv (by omega) (by omega)
  have h0 : 0 ≤ (hi - lo) / threads := Int.ediv_nonneg (by omega) (by omega)
  have h1 : (hi - lo) / threads ≤ hi - lo := Int.ediv_le_self _ (by omega)
  have hmin : minInt = -9223372036854775808 := rfl
  have hmax : maxInt = 9223372036854775807 := rfl
  rw [NoOverflow, hdiv]
  refine ⟨⟨by omega, ht⟩, ⟨hlo, by omega⟩, ⟨by omega, by omega⟩, ⟨by omega, by omega⟩,
    ⟨by omega, by omega⟩, ?_⟩
  intro k hk
  have : 0 ≤ (k : Int) * ((hi - lo) / threads) := Int.mul_nonneg (by omega) h0
  exact ⟨by omega, by omega⟩

/-- The loop returns the same chunks whatever fuel lets it end. -/
theorem loop_some_unique {iTo n : Int} : ∀ (fuel fuel' : Nat) (j : Int)
    (cs cs' : List (Int × Int)), AddRangeTask.loop iTo n fuel j = some cs →
      AddRangeTask.loop iTo n fuel' j = some cs' → cs = cs' := by
  intro fuel
  induction fuel with
  | zero => intro fuel' j cs cs' h; simp [AddRangeTask.loop] at h
  | succ fuel ih =>
    intro fuel' j cs cs' h h'
    cases fuel' with
    | zero => simp [AddRangeTask.loop] at h'
    | succ fuel' =>
      by_cases hj : j < iTo
      · simp only [AddRangeTask.loop, hj, if_true, Option.map_eq_some'] at h h'
        obtain ⟨r, hr, rfl⟩ := h
        obtain ⟨r', hr', rfl⟩ := h'
        rw [ih fuel' _ r r' hr hr']
      · simp only [AddRangeTask.loop, hj, if_false, Option.some.injEq] at h h'
        rw [← h, ← h']

/-- If the loop ran `k` iterations and ends, it has submitted at least `k` chunks. -/
theorem iter_le_length {iTo n : Int} : ∀ (k fuel : Nat) (j : Int)
    (r : Int × List (Int × Int)) (cs : List (Int × Int)),
    AddRangeTask.iter iTo n k j = some r → AddRangeTask.loop iTo n fuel j = some cs →
      k ≤ cs.length := by
  intro k
  induction k with
  | zero => intro fuel j r cs _ _; omega
  | succ k ih =>
    intro fuel j r cs h h'
    cases fuel with
    | zero => simp [AddRangeTask.loop] at h'
    | succ fuel =>
      by_cases hj : j < iTo
      · simp only [AddRangeTask.iter, hj, if_true, Option.map_eq_some'] at h
        simp only [AddRangeTask.loop, hj, if_true, Option.map_eq_some'] at h'
        obtain ⟨r1, hr1, -⟩ := h
        obtain ⟨cs1, hcs1, rfl⟩ := h'
        have := ih fuel _ r1 cs1 hr1 hcs1
        simp only [List.length_cons]
        omega
      · simp [AddRangeTask.iter, hj] at h

/-! ## Theorems: the chunks submitted by AddRangeTask -/

/-- C4: when `1 ≤ threads`, `threads ≤ hi - lo` and no `int` operation overflows, the loop
of `AddRangeTask` ends and the chunks it submits partition `[lo, hi)`: the
first starts at `lo`, each ends where the next starts, the last ends at `hi`,
none is empty, every index of `[lo, hi)` lies in exactly one chunk, and the
chunks laid end to end enumerate `lo, ..., hi - 1`. -/
theorem AddRangeTask_partitions (threads lo hi : Int) (hT : 1 ≤ threads) (hlt : lo < hi)
    (hge : threads ≤ hi - lo) (hno : NoOverflow threads lo hi) :
    ∃ cs : List (Int × Int),
      (∀ fuel, (hi - lo).toNat < fuel → AddRangeTask.chunks threads lo hi fuel = some cs) ∧
      cs.head?.map Prod.fst = some lo ∧
      cs.getLast?.map Prod.snd = some hi ∧
      (∀ (k : Nat) (c d : Int × Int), cs[k]? = some c → cs[k + 1]? = some d → c.2 = d.1) ∧
      (∀ c ∈ cs, c.1 < c.2) ∧
      (∀ x, lo ≤ x → x < hi → ∃! k : Nat, ∃ c, cs[k]? = some c ∧ c.1 ≤ x ∧ x < c.2) ∧
      cs.flatMap (fun c => indices c.1 c.2) = indices lo hi := by
  obtain ⟨cs, hfuel, rest⟩ := chunksZ_partitions threads lo hi hT hlt hge
  refine ⟨cs, ?_, rest⟩
  intro fuel hf
  rw [chunks_eq_chunksZ hno fuel]
  exact hfuel fuel hf

/-- Instance of `AddRangeTask_partitions`: `AddRangeTask(0, 10, ...)` on three threads. -/
theorem AddRangeTask_partitions_witness :
    ((1 : Int) ≤ 3 ∧ (0 : Int) < 10 ∧ (3 : Int) ≤ 10 - 0 ∧ NoOverflow 3 0 10) ∧
    ∃ cs : List (Int × Int),
      (∀ fuel, ((10 : Int) - 0).toNat < fuel → AddRangeTask.chunks 3 0 10 fuel = some cs) ∧
      cs.head?.map Prod.fst = some 0 ∧
      cs.getLast?.map Prod.snd = some 10 ∧
      (∀ (k : Nat) (c d : Int × Int), cs[k]? = some c → cs[k + 1]? = some d → c.2 = d.1) ∧
      (∀ c ∈ cs, c.1 < c.2) ∧
      (∀ x, (0 : Int) ≤ x → x < 10 → ∃! k : Nat, ∃ c, cs[k]? = some c ∧ c.1 ≤ x ∧ x < c.2) ∧
      cs.flatMap (fun c => indices c.1 c.2) = indices 0 10 :=
  ⟨⟨by decide, by decide, by decide,
      noOverflow_of_le (by decide) (by decide) (by decide) (by decide) (by decide)⟩,
    AddRangeTask_partitions 3 0 10 (by decide) (by decide) (by decide)
      (noOverflow_of_le (by decide) (by decide) (by decide) (by decide) (by decide))⟩

/-- C7, counterexample: for `threads = 2`, `lo = -2^63`, `hi = 2^63 - 2`, where `hi - lo`
is divisible by `2`, the subtraction `iTo-iFrom` wraps to `-2`, the step is
`n = -1`, and `AddRangeTask` submits the single chunk `[lo, hi)`: not two
chunks. -/
theorem AddRangeTask_divisible_counterexample :
    ((1 : Int) ≤ 2 ∧ minInt < maxInt - 1 ∧ (2 : Int) ∣ (maxInt - 1) - minInt ∧
      InRange minInt ∧ InRange (maxInt - 1)) ∧
    wrap ((wrap ((maxInt - 1) - minInt)).tdiv 2) = -1 ∧
    AddRangeTask.chunks 2 minInt (maxInt - 1) 2 = some [(minInt, maxInt - 1)] ∧
    ¬ EvenSplit 2 minInt (maxInt - 1) := by
  refine ⟨by decide, by decide, by decide, ?_⟩
  rintro ⟨cs, ⟨fuel, hf⟩, hlen, -⟩
  have h2 : AddRangeTask.chunks 2 minInt (maxInt - 1) 2 = some [(minInt, maxInt - 1)] := by
    decide
  have := loop_some_unique _ _ _ _ _ hf h2
  subst this
  simp at hlen

/-- C7 as amended: when `1 ≤ threads`, `lo < hi`, `threads` divides `hi - lo` and no `int`
operation overflows, the loop of `AddRangeTask` ends after submitting exactly
`threads` chunks, each of size exactly `(hi - lo) / threads`. -/
theorem AddRangeTask_divisible (threads lo hi : Int) (hT : 1 ≤ threads) (hlt : lo < hi)
    (hdvd : threads ∣ hi - lo) (hno : NoOverflow threads lo hi) :
    ∃ cs : List (Int × Int),
      (∀ fuel, (hi - lo).toNat < fuel → AddRangeTask.chunks threads lo hi fuel = some cs) ∧
      (cs.length : Int) = threads ∧
      ∀ c ∈ cs, c.2 - c.1 = (hi - lo) / threads := by
  obtain ⟨cs, hfuel, rest⟩ := chunksZ_divisible threads lo hi hT hlt hdvd
  refine ⟨cs, ?_, rest⟩
  intro fuel hf
  rw [chunks_eq_chunksZ hno fuel]
  exact hfuel fuel hf

/-- Instance of `AddRangeTask_divisible`: `AddRangeTask(0, 12, ...)` on four threads. -/
theorem AddRangeTask_divisible_witness :
    ((1 : Int) ≤ 4 ∧ (0 : Int) < 12 ∧ (4 : Int) ∣ 12 - 0 ∧ NoOverflow 4 0 12) ∧
    ∃ cs : List (Int × Int),
      (∀ fuel, ((12 : Int) - 0).toNat < fuel → AddRangeTask.chunks 4 0 12 fuel = some cs) ∧
      (cs.length : Int) = 4 ∧
      ∀ c ∈ cs, c.2 - c.1 = (12 - 0) / 4 :=
  ⟨⟨by decide, by decide, by decide,
      noOverflow_of_le (by decide) (by decide) (by decide) (by decide) (by decide)⟩,
    AddRangeTask_divisible 4 0 12 (by decide) (by decide) (by decide)
      (noOverflow_of_le (by decide) (by decide) (by decide) (by decide) (by decide))⟩

/-- C10, counterexample: for `threads = 3`, `lo = 2^63 - 11`, `hi = 2^63 - 1` the step is
`n = 3 ≥ 1` and `⌈(hi - lo) / n⌉ = 4`, but in the fourth iteration `j + n`
wraps to `-2^63 + 1`, so the fourth chunk `[hi - 1, -2^63 + 1)` is empty, `j`
becomes `-2^63 + 1`, and the loop goes on: after five iterations it is still
running, so it never ends with four chunks. -/
theorem AddRangeTask_chunk_count_counterexample :
    ((1 : Int) ≤ 3 ∧ maxInt - 10 < maxInt ∧ (1 : Int) ≤ (maxInt - (maxInt - 10)) / 3 ∧
      InRange (maxInt - 10) ∧ InRange maxInt) ∧
    wrap ((wrap (maxInt - (maxInt - 10))).tdiv 3) = 3 ∧
    (maxInt - (maxInt - 10) + (maxInt - (maxInt - 10)) / 3 - 1)
      / ((maxInt - (maxInt - 10)) / 3) = 4 ∧
    AddRangeTask.iter maxInt 3 5 (maxInt - 10)
      = some (minInt + 4,
          [(maxInt - 10, maxInt - 7), (maxInt - 7, maxInt - 4), (maxInt - 4, maxInt - 1),
            (maxInt - 1, minInt + 1), (minInt + 1, minInt + 4)]) ∧
    ¬ CeilCount 3 (maxInt - 10) maxInt := by
  refine ⟨by decide, by decide, by decide, by decide, ?_⟩
  rintro ⟨cs, ⟨fuel, hf⟩, hlen⟩
  have hn : wrap ((wrap (maxInt - (maxInt - 10))).tdiv 3) = 3 := by decide
  have hit : AddRangeTask.iter maxInt 3 5 (maxInt - 10)
      = some (minInt + 4,
          [(maxInt - 10, maxInt - 7), (maxInt - 7, maxInt - 4), (maxInt - 4, maxInt - 1),
            (maxInt - 1, minInt + 1), (minInt + 1, minInt + 4)]) := by decide
  have hc : (maxInt - (maxInt - 10) + (maxInt - (maxInt - 10)) / 3 - 1)
      / ((maxInt - (maxInt - 10)) / 3) = 4 := by decide
  unfold AddRangeTask.chunks at hf
  simp only [hn] at hf
  have := iter_le_length _ _ _ _ _ hit hf
  rw [hc] at hlen
  omega

/-- C10 as amended: when `1 ≤ threads`, `lo < hi`, `n = (hi - lo) / threads ≥ 1` and no
`int` operation overflows, the loop of `AddRangeTask` ends after submitting
exactly `⌈(hi - lo) / n⌉` chunks (the integer `K` with
`(K - 1) * n < hi - lo ≤ K * n`, equal to `(hi - lo + n - 1) / n`); every chunk
but the last has size `n`, the last has a size between `1` and `n`, no chunk is
larger than `n`, and when `threads` does not divide `hi - lo` the number of
chunks is more than `threads` and at most `2 * threads - 1`. -/
theorem AddRangeTask_chunk_count (threads lo hi : Int) (hT : 1 ≤ threads) (hlt : lo < hi)
    (hn : 1 ≤ (hi - lo) / threads) (hno : NoOverflow threads lo hi) :
    ∃ cs : List (Int × Int),
      (∀ fuel, (hi - lo).toNat < fuel → AddRangeTask.chunks threads lo hi fuel = some cs) ∧
      (cs.length : Int) = (hi - lo + (hi - lo) / threads - 1) / ((hi - lo) / threads) ∧
      ((cs.length : Int) - 1) * ((hi - lo) / threads) < hi - lo ∧
      hi - lo ≤ (cs.length : Int) * ((hi - lo) / threads) ∧
      (∀ (k : Nat) (c : Int × Int), k + 1 < cs.length → cs[k]? = some c →
        c.2 - c.1 = (hi - lo) / threads) ∧
      (∀ c, cs.getLast? = some c → 1 ≤ c.2 - c.1 ∧ c.2 - c.1 ≤ (hi - lo) / threads) ∧
      (∀ c ∈ cs, c.2 - c.1 ≤ (hi - lo) / threads) ∧
      (¬ threads ∣ hi - lo → threads < cs.length ∧ (cs.length : Int) ≤ 2 * threads - 1) := by
  obtain ⟨cs, hfuel, rest⟩ := chunksZ_chunk_count threads lo hi hT hlt hn
  refine ⟨cs, ?_, rest⟩
  intro fuel hf
  rw [chunks_eq_chunksZ hno fuel]
  exact hfuel fuel hf

/-- Instance of `AddRangeTask_chunk_count`: `AddRangeTask(0, 10, ...)` on three threads. -/
theorem AddRangeTask_chunk_count_witness :
    ((1 : Int) ≤ 3 ∧ (0 : Int) < 10 ∧ (1 : Int) ≤ (10 - 0) / 3 ∧ NoOverflow 3 0 10) ∧
    ∃ cs : List (Int × Int),
      (∀ fuel, ((10 : Int) - 0).toNat < fuel → AddRangeTask.chunks 3 0 10 fuel = some cs) ∧
      (cs.length : Int) = (10 - 0 + (10 - 0) / 3 - 1) / ((10 - 0) / 3) ∧
      ((cs.length : Int) - 1) * ((10 - 0) / 3) < 10 - 0 ∧
      10 - 0 ≤ (cs.length : Int) * ((10 - 0) / 3) ∧
      (∀ (k : Nat) (c : Int × Int), k + 1 < cs.length → cs[k]? = some c →
        c.2 - c.1 = (10 - 0) / 3) ∧
      (∀ c, cs.getLast? = some c → 1 ≤ c.2 - c.1 ∧ c.2 - c.1 ≤ (10 - 0) / 3) ∧
      (∀ c ∈ cs, c.2 - c.1 ≤ (10 - 0) / 3) ∧
      (¬ (3 : Int) ∣ 10 - 0 → (3 : Int) < cs.length ∧ (cs.length : Int) ≤ 2 * 3 - 1) :=
  ⟨⟨by decide, by decide, by decide,
      noOverflow_of_le (by decide) (by decide) (by decide) (by decide) (by decide)⟩,
    AddRangeTask_chunk_count 3 0 10 (by decide) (by decide) (by decide)
      (noOverflow_of_le (by decide) (by decide) (by decide) (by decide) (by decide))⟩

/-- C5, counterexample: `AddRangeTask(0, 10, ...)` on three threads submits the four
chunks `[0,3) [3,6) [6,9) [9,10)`, of sizes `3, 3, 3, 1`: not three chunks, and
the last chunk is the smallest, not the largest.  And for `lo = 2^63 - 11`,
`hi = 2^63 - 1` on three threads, where `j + n` wraps in the fourth iteration,
the fourth chunk is empty and the loop is still running after five
iterations. -/
theorem AddRangeTask_remainder_counterexample :
    AddRangeTask.chunks 3 0 10 11 = some [(0, 3), (3, 6), (6, 9), (9, 10)] ∧
    (AddRangeTask.chunks 3 0 10 11).map sizes = some [3, 3, 3, 1] ∧
    ((1 : Int) ≤ 3 ∧ (0 : Int) < 10 ∧ (3 : Int) ≤ 10 - 0 ∧ ¬ (3 : Int) ∣ 10 - 0) ∧
    ¬ RemainderAbsorbed 3 0 10 ∧
    ((3 : Int) ≤ maxInt - (maxInt - 10) ∧ ¬ (3 : Int) ∣ maxInt - (maxInt - 10)) ∧
    AddRangeTask.iter maxInt (wrap ((wrap (maxInt - (maxInt - 10))).tdiv 3)) 5 (maxInt - 10)
      = some (minInt + 4,
          [(maxInt - 10, maxInt - 7), (maxInt - 7, maxInt - 4), (maxInt - 4, maxInt - 1),
            (maxInt - 1, minInt + 1), (minInt + 1, minInt + 4)]) := by
  refine ⟨by decide, by decide, by decide, ?_, by decide, by decide⟩
  rintro ⟨cs, ⟨fuel, hf⟩, hlen, -, -⟩
  have h2 : AddRangeTask.chunks 3 0 10 11 = some [(0, 3), (3, 6), (6, 9), (9, 10)] := by
    decide
  have := loop_some_unique _ _ _ _ _ hf h2
  subst this
  simp at hlen

/-- C5 as amended: when `1 ≤ threads`, `threads ≤ hi - lo`, `threads` does not divide
`hi - lo` and no `int` operation overflows, the loop of `AddRangeTask` ends
after submitting `threads + ⌈r / n⌉` chunks, with `n = (hi - lo) / threads` and
`r = (hi - lo) % threads`, which is more than `threads`; all chunks but the
last have size `n`, and the last has a size between `1` and `n`, so it is never
larger than the others. -/
theorem AddRangeTask_remainder_extra_chunks (threads lo hi : Int) (hT : 1 ≤ threads)
    (hlt : lo < hi) (hge : threads ≤ hi - lo) (hnd : ¬ threads ∣ hi - lo)
    (hno : NoOverflow threads lo hi) :
    ∃ cs : List (Int × Int),
      (∀ fuel, (hi - lo).toNat < fuel → AddRangeTask.chunks threads lo hi fuel = some cs) ∧
      (cs.length : Int)
        = threads + ((hi - lo) % threads + (hi - lo) / threads - 1) / ((hi - lo) / threads) ∧
      threads < cs.length ∧
      (∀ (k : Nat) (c : Int × Int), k + 1 < cs.length → cs[k]? = some c →
        c.2 - c.1 = (hi - lo) / threads) ∧
      (∀ c, cs.getLast? = some c → 1 ≤ c.2 - c.1 ∧ c.2 - c.1 ≤ (hi - lo) / threads) := by
  obtain ⟨cs, hfuel, rest⟩ := chunksZ_remainder_extra_chunks threads lo hi hT hlt hge hnd
  refine ⟨cs, ?_, rest⟩
  intro fuel hf
  rw [chunks_eq_chunksZ hno fuel]
  exact hfuel fuel hf

/-- Instance of `AddRangeTask_remainder_extra_chunks`: `AddRangeTask(0, 10, ...)` on three
threads. -/
theorem AddRangeTask_remainder_extra_chunks_witness :
    ((1 : Int) ≤ 3 ∧ (0 : Int) < 10 ∧ (3 : Int) ≤ 10 - 0 ∧ ¬ (3 : Int) ∣ 10 - 0 ∧
      NoOverflow 3 0 10) ∧
    ∃ cs : List (Int × Int),
      (∀ fuel, ((10 : Int) - 0).toNat < fuel → AddRangeTask.chunks 3 0 10 fuel = some cs) ∧
      (cs.length : Int) = 3 + ((10 - 0) % 3 + (10 - 0) / 3 - 1) / ((10 - 0) / 3) ∧
      (3 : Int) < cs.length ∧
      (∀ (k : Nat) (c : Int × Int), k + 1 < cs.length → cs[k]? = some c →
        c.2 - c.1 = (10 - 0) / 3) ∧
      (∀ c, cs.getLast? = some c → 1 ≤ c.2 - c.1 ∧ c.2 - c.1 ≤ (10 - 0) / 3) :=
  ⟨⟨by decide, by decide, by decide, by decide,
      noOverflow_of_le (by decide) (by decide) (by decide) (by decide) (by decide)⟩,
    AddRangeTask_remainder_extra_chunks 3 0 10 (by decide) (by decide) (by decide) (by decide)
      (noOverflow_of_le (by decide) (by decide) (by decide) (by decide) (by decide))⟩

/-- With step `n = 0` the loop of `AddRangeTask` never ends: `j` stays below `iTo`. -/
theorem loop_step_zero {iTo j : Int} (h : j < iTo) (hj : InRange j) :
    ∀ fuel, AddRangeTask.loop iTo 0 fuel j = none := by
  intro fuel
  have hw : wrap j = j := wrap_of_inRange hj
  induction fuel with
  | zero => rfl
  | succ fuel ih => simp [AddRangeTask.loop, h, hw, ih]

/-- With step `n = 0` every iteration submits the empty chunk `[j, j)` and leaves `j`
where it was. -/
theorem iter_step_zero {iTo j : Int} (h : j < iTo) (hj : InRange j) :
    ∀ k, AddRangeTask.iter iTo 0 k j = some (j, List.replicate k (j, j)) := by
  intro k
  have hw : wrap j = j := wrap_of_inRange hj
  induction k with
  | zero => rfl
  | succ k ih =>
    have : ¬ iTo < j := by omega
    simp [AddRangeTask.iter, h, hw, ih, this, List.replicate_succ]

/-- Whenever `0 < hi - lo < threads` the loop of `AddRangeTask` never ends. -/
theorem chunks_degenerate (threads lo hi : Int) (hlt : lo < hi) (hsmall : hi - lo < threads)
    (hlo : InRange lo) (hd : InRange (hi - lo)) :
    ∀ fuel, AddRangeTask.chunks threads lo hi fuel = none := by
  intro fuel
  have hdiv : (hi - lo).tdiv threads = 0 := by
    rw [Int.tdiv_eq_ediv (by omega) (by omega)]
    exact Int.ediv_eq_zero_of_lt (by omega) hsmall
  have hw0 : wrap 0 = 0 := by decide
  unfold AddRangeTask.chunks
  simp only [wrap_of_inRange hd, hdiv, hw0]
  exact loop_step_zero hlt hlo fuel

/-- C6, the code at the failing input: `AddRangeTask(0, 2, ...)` on four threads computes
the step `n = 0`; its loop never ends, whatever the fuel, and after `k`
iterations `j` is still `0` and `k` empty chunks `[0, 0)` have been submitted,
so neither index `0` nor index `1` is ever handed to the per-item function. -/
theorem AddRangeTask_degenerate_diverges (k : Nat) :
    ((2 : Int) - 0).tdiv 4 = 0 ∧
    AddRangeTask.chunks 4 0 2 k = none ∧
    AddRangeTask.iter 2 (((2 : Int) - 0).tdiv 4) k 0 = some (0, List.replicate k (0, 0)) ∧
    (List.replicate k ((0 : Int), (0 : Int))).flatMap (fun c => indices c.1 c.2) = [] := by
  refine ⟨by decide,
    chunks_degenerate 4 0 2 (by decide) (by decide) (by decide) (by decide) k, ?_, ?_⟩
  · have : ((2 : Int) - 0).tdiv 4 = 0 := by decide
    rw [this]
    exact iter_step_zero (by decide) (by decide) k
  · induction k with
    | zero => rfl
    | succ k ih => simp [List.replicate_succ, indices]

/-! ## Theorems: the chunk closure -/

theorem indices_cons {a b : Int} (h : a < b) : indices a b = a :: indices (a + 1) b := by
  rw [← indices_append (show a ≤ a + 1 by omega) (show a + 1 ≤ b by omega)]
  have : indices a (a + 1) = [a] := by
    unfold indices
    have : (a + 1 - a).toNat = 1 := by omega
    simp [this, List.range_succ]
  rw [this]; rfl

theorem chunkTask_loop_done {σ ε π : Type} (task : Int → Int → π → σ → Option ε × σ)
    (b w : Int) (p : π) (i : Int) (s : σ) (h : ¬ i < b) :
    chunkTask.loop task b w p i s = (none, s) := by
  rw [chunkTask.loop]; simp [h]

theorem chunkTask_loop_some {σ ε π : Type} (task : Int → Int → π → σ → Option ε × σ)
    (b w : Int) (p : π) (i : Int) (s s' : σ) (err : ε) (h : i < b)
    (hr : task i w p s = (some err, s')) :
    chunkTask.loop task b w p i s = (some err, s') := by
  rw [chunkTask.loop]; simp [h, hr]

theorem chunkTask_loop_none {σ ε π : Type} (task : Int → Int → π → σ → Option ε × σ)
    (b w : Int) (p : π) (i : Int) (s s' : σ) (h : i < b)
    (hr : task i w p s = (none, s')) :
    chunkTask.loop task b w p i s = chunkTask.loop task b w p (i + 1) s' := by
  rw [chunkTask.loop]; simp [h, hr]

/-- The loop of the chunk closure from index `i`, run on the instrumented per-item
function with log `l`: it computes what the loop on the plain function computes,
and extends the log by the calls at `i, i+1, ...` up to the first failing one. -/
theorem chunkTask_loop_traced {σ ε π : Type} (task : Int → Int → π → σ → Option ε × σ)
    (b w : Int) (p : π) : ∀ (m : Nat) (i : Int) (s : σ) (l : List (Int × Int × π × Option ε)),
    (b - i).toNat = m →
      chunkTask.loop task b w p i s
        = ((chunkTask.loop (traced task) b w p i (s, l)).1,
           (chunkTask.loop (traced task) b w p i (s, l)).2.1) ∧
      (((chunkTask.loop (traced task) b w p i (s, l)).1 = none ∧
          (chunkTask.loop (traced task) b w p i (s, l)).2.2
            = l ++ (indices i b).map (fun x => (x, w, p, none))) ∨
        ∃ (i0 : Int) (e : ε), i ≤ i0 ∧ i0 < b ∧
          (chunkTask.loop (traced task) b w p i (s, l)).1 = some e ∧
          (chunkTask.loop (traced task) b w p i (s, l)).2.2
            = l ++ (indices i i0).map (fun x => (x, w, p, none)) ++ [(i0, w, p, some e)]) := by
  intro m
  induction m with
  | zero =>
    intro i s l hm
    have hi : ¬ i < b := by omega
    rw [chunkTask_loop_done _ _ _ _ _ _ hi, chunkTask_loop_done _ _ _ _ _ _ hi]
    simp [indices_of_le (show b ≤ i by omega)]
  | succ m ih =>
    intro i s l hm
    have hi : i < b := by omega
    cases hr : task i w p s with
    | mk r s' =>
      cases r with
      | some err =>
        have ht : traced task i w p (s, l) = (some err, (s', l ++ [(i, w, p, some err)])) := by
          simp [traced, hr]
        rw [chunkTask_loop_some _ _ _ _ _ _ _ _ hi hr, chunkTask_loop_some _ _ _ _ _ _ _ _ hi ht]
        refine ⟨rfl, Or.inr ⟨i, err, le_refl _, hi, rfl, ?_⟩⟩
        simp [indices_of_le (le_refl i)]
      | none =>
        have ht : traced task i w p (s, l) = (none, (s', l ++ [(i, w, p, none)])) := by
          simp [traced, hr]
        rw [chunkTask_loop_none _ _ _ _ _ _ _ hi hr, chunkTask_loop_none _ _ _ _ _ _ _ hi ht]
        obtain ⟨h1, h2⟩ := ih (i + 1) s' (l ++ [(i, w, p, none)]) (by omega)
        refine ⟨h1, ?_⟩
        rcases h2 with ⟨h3, h4⟩ | ⟨i0, e, h3, h4, h5, h6⟩
        · refine Or.inl ⟨h3, ?_⟩
          rw [h4, indices_cons hi]
          simp
        · refine Or.inr ⟨i0, e, by omega, h4, h5, ?_⟩
          rw [h6, indices_cons (show i < i0 by omega)]
          simp

/-- C8: the closure built for the chunk `[a, b)`, run with worker index `w` and probe `p`.
Run on the instrumented per-item function from an empty log, it returns what the
closure on the plain function returns and leaves the same memory, and the log
of calls, each with its three arguments and its result, is either
`(a, w, p, none), (a+1, w, p, none), ..., (b-1, w, p, none)` with result `none`
(every index called once, in ascending order, with the worker index and the
probe the closure was given, all returning `none`), or
`(a, w, p, none), ..., (i0 - 1, w, p, none), (i0, w, p, some e)` with result
`some e` for an `i0` of `[a, b)`: `i0` is the first index at which the function
fails, the closure returns that error, and no index above `i0` is called. -/
theorem chunkTask_calls {σ ε π : Type} (task : Int → Int → π → σ → Option ε × σ)
    (a b w : Int) (p : π) (s : σ) :
    chunkTask task a b w p s
      = ((chunkTask (traced task) a b w p (s, [])).1,
         (chunkTask (traced task) a b w p (s, [])).2.1) ∧
    (((chunkTask (traced task) a b w p (s, [])).1 = none ∧
        (chunkTask (traced task) a b w p (s, [])).2.2
          = (indices a b).map (fun x => (x, w, p, none))) ∨
      ∃ (i0 : Int) (e : ε), a ≤ i0 ∧ i0 < b ∧
        (chunkTask (traced task) a b w p (s, [])).1 = some e ∧
        (chunkTask (traced task) a b w p (s, [])).2.2
          = (indices a i0).map (fun x => (x, w, p, none)) ++ [(i0, w, p, some e)]) := by
  have := chunkTask_loop_traced task b w p _ a s [] rfl
  simpa [chunkTask] using this

/-! ## Theorems: the pool -/

/-- C9: `NewThreadPool(threads, bufsize)` panics exactly when `threads < 1` or
`bufsize < 1`, and returns a pool exactly when both are at least `1`; it panics
for `threads = 0` whatever `bufsize` is, for `bufsize = 0` whatever `threads`
is, and returns a pool for `threads = 1`, `bufsize = 1`. -/
theorem NewThreadPool_fails_iff {ε : Type} (threads bufsize : Int) :
    ((∃ msg, NewThreadPool (ε := ε) threads bufsize = Except.error msg)
      ↔ (threads < 1 ∨ bufsize < 1)) ∧
    ((∃ t, NewThreadPool (ε := ε) threads bufsize = Except.ok t)
      ↔ (1 ≤ threads ∧ 1 ≤ bufsize)) ∧
    (∃ msg, NewThreadPool (ε := ε) 0 bufsize = Except.error msg) ∧
    (∃ msg, NewThreadPool (ε := ε) threads 0 = Except.error msg) ∧
    (∃ t, NewThreadPool (ε := ε) 1 1 = Except.ok t) := by
  refine ⟨?_, ?_, ⟨_, rfl⟩, ?_, ⟨_, rfl⟩⟩
  · unfold NewThreadPool
    by_cases h1 : threads < 1
    · simp [h1]
    · by_cases h2 : bufsize < 1
      · simp [h1, h2]
      · simp [h1, h2]
  · unfold NewThreadPool
    by_cases h1 : threads < 1
    · simp [h1]
    · by_cases h2 : bufsize < 1
      · simp [h1, h2]
      · simp [h1, h2]; omega
  · unfold NewThreadPool
    by_cases h1 : threads < 1
    · simp [h1]
    · simp [h1]

theorem sum_map_set {α M : Type} [AddCommMonoid M] (f : α → M) :
    ∀ (ws : List α) (i : Nat) (w w' : α), ws[i]? = some w →
      ((ws.set i w').map f).sum + f w = (ws.map f).sum + f w' := by
  intro ws
  induction ws with
  | nil => intro i w w' h; simp at h
  | cons a ws ih =>
    intro i w w' h
    cases i with
    | zero =>
      simp only [List.getElem?_cons_zero, Option.some.injEq] at h
      subst h
      simp only [List.set_cons_zero, List.map_cons, List.sum_cons]
      abel
    | succ i =>
      simp only [List.getElem?_cons_succ] at h
      have := ih i w w' h
      simp only [List.set_cons_succ, List.map_cons, List.sum_cons]
      rw [add_assoc, this, add_assoc]

theorem aliveCount_le {ε : Type} (ws : List (Worker ε)) : aliveCount ws ≤ ws.length := by
  induction ws with
  | nil => simp [aliveCount]
  | cons a ws ih =>
    simp only [aliveCount, List.map_cons, List.sum_cons, List.length_cons] at ih ⊢
    cases a <;> simp [Worker.alive] <;> omega

theorem alive_of_getElem? {ε : Type} : ∀ (ws : List (Worker ε)) (i : Nat) (w : Worker ε),
    ws[i]? = some w → Worker.alive w ≤ aliveCount ws := by
  intro ws
  induction ws with
  | nil => intro i w h; simp at h
  | cons a ws ih =>
    intro i w h
    cases i with
    | zero =>
      simp only [List.getElem?_cons_zero, Option.some.injEq] at h
      subst h
      simp [aliveCount]
    | succ i =>
      simp only [List.getElem?_cons_succ] at h
      have := ih i w h
      simp only [aliveCount, List.map_cons, List.sum_cons] at this ⊢
      omega

theorem alive_sum_set {ε : Type} {ws : List (Worker ε)} {i : Nat} {w : Worker ε} (w' : Worker ε)
    (h : ws[i]? = some w) :
    aliveCount (ws.set i w') + w.alive = aliveCount ws + w'.alive :=
  sum_map_set Worker.alive ws i w w' h

theorem not_joined_of_alive {ε : Type} {s : State ε} (hI : InvA s) (h : 1 ≤ aliveCount s.workers) :
    s.caller.joined = false ∧ ∀ err, s.caller ≠ Caller.launch err := by
  have : s.caller.joined = false := by
    cases hc : s.caller.joined
    · rfl
    · have := hI.joined hc; omega
  refine ⟨this, ?_⟩
  intro err he
  rw [he] at this
  cases this

theorem stepWorker_invA {ε : Type} {s s' : State ε} {i : Nat} (hI : InvA s)
    (h : stepWorker s i = some s') : InvA s' := by
  have hnj := not_joined_of_alive hI
  obtain ⟨h1, h2, h3, h4, h5, h6, h7, h8, h9, h10, h11, h12⟩ := hI
  unfold stepWorker at h
  split at h
  · cases h
  · rename_i hw
    have hle := alive_of_getElem? _ _ _ hw
    simp only [Worker.alive] at hle
    obtain ⟨hj, hl⟩ := hnj hle
    split at h
    · rename_i id task rest hb
      cases h
      have hs := alive_sum_set (Worker.call id (task ((i : Int) + 1))) hw
      simp only [Worker.alive] at hs
      have hp : s.caller.pastLoop = false := by
        cases hc : s.caller.pastLoop
        · rfl
        · rw [h4 hc] at hb; cases hb
      constructor <;> (try simp_all) <;> (try omega) <;> (try assumption)
    · split at h
      · split at h
        · cases h
          constructor <;> (try simp_all) <;> (try omega) <;> (try assumption)
        · cases h
          have hs := alive_sum_set Worker.exited hw
          simp only [Worker.alive] at hs
          constructor <;> (try simp_all) <;> (try omega) <;> (try assumption)
      · cases h
  · rename_i id k hw
    have hle := alive_of_getElem? _ _ _ hw
    simp only [Worker.alive] at hle
    obtain ⟨hj, hl⟩ := hnj hle
    cases h
    have hs := alive_sum_set (Worker.call id (k (getError s))) hw
    simp only [Worker.alive] at hs
    constructor <;> (try simp_all) <;> (try omega) <;> (try assumption)
  · rename_i id hw
    have hle := alive_of_getElem? _ _ _ hw
    simp only [Worker.alive] at hle
    obtain ⟨hj, hl⟩ := hnj hle
    cases h
    have hs := alive_sum_set Worker.range hw
    simp only [Worker.alive] at hs
    constructor <;> (try simp_all) <;> (try omega) <;> (try assumption)
  · rename_i id err hw
    have hle := alive_of_getElem? _ _ _ hw
    simp only [Worker.alive] at hle
    obtain ⟨hj, hl⟩ := hnj hle
    cases h
    have hs := alive_sum_set (Worker.seterr err) hw
    simp only [Worker.alive] at hs
    constructor <;> (try simp_all) <;> (try omega) <;> (try assumption)
  · rename_i err hw
    have hle := alive_of_getElem? _ _ _ hw
    simp only [Worker.alive] at hle
    obtain ⟨hj, hl⟩ := hnj hle
    cases h
    have hs := alive_sum_set Worker.range hw
    simp only [Worker.alive] at hs
    constructor <;> (try simp_all [setError]) <;> (try omega) <;> (try assumption)
  · cases h

theorem aliveCount_replicate {ε : Type} (n : Nat) :
    aliveCount (List.replicate n (Worker.range : Worker ε)) = n := by
  induction n with
  | zero => rfl
  | succ n ih =>
    simp only [aliveCount, List.replicate_succ, List.map_cons, List.sum_cons] at ih ⊢
    simp [Worker.alive, ih]; omega

theorem stepCaller_invA {ε : Type} {s s' : State ε} (hI : InvA s)
    (h : stepCaller s = some s') : InvA s' := by
  obtain ⟨h1, h2, h3, h4, h5, h6, h7, h8, h9, h10, h11, h12⟩ := hI
  have hal := aliveCount_le s.workers
  unfold stepCaller at h
  split at h
  · rename_i hc
    split at h
    · cases h
    · split at h
      · cases h
        simp_all [Caller.afterClose]
      · split at h
        · cases h
          constructor <;> (try simp_all [Caller.holdsWg, Caller.afterClose, Caller.pastLoop, Caller.joined]) <;> (try omega) <;> (try assumption)
        · cases h
    · cases h
      constructor <;> (try simp_all [Caller.holdsWg, Caller.afterClose, Caller.pastLoop, Caller.joined]) <;> (try omega) <;> (try assumption)
  · rename_i hc
    split at h
    · cases h
      constructor <;> (try simp_all [Caller.holdsWg, Caller.afterClose, Caller.pastLoop, Caller.joined]) <;> (try omega) <;> (try assumption)
    · split at h
      · cases h
        simp_all [Caller.afterClose]
      · cases h
        constructor <;> (try simp_all [Caller.holdsWg, Caller.afterClose, Caller.pastLoop, Caller.joined]) <;> (try omega) <;> (try assumption)
  · cases h
    constructor <;> (try simp_all [Caller.holdsWg, Caller.afterClose, Caller.pastLoop, Caller.joined]) <;> (try omega) <;> (try assumption)
  · cases h
    constructor <;> (try simp_all [Caller.holdsWg, Caller.afterClose, Caller.pastLoop, Caller.joined]) <;> (try omega) <;> (try assumption)
  · cases h
    constructor <;> (try simp_all [Caller.holdsWg, Caller.afterClose, Caller.pastLoop, Caller.joined]) <;> (try omega) <;> (try assumption)
  · cases h
    constructor <;> (try simp_all [setError, Caller.holdsWg, Caller.afterClose, Caller.pastLoop, Caller.joined]) <;> (try omega) <;> (try assumption)
  · split at h
    · cases h
      simp_all [Caller.afterClose]
    · cases h
      constructor <;> (try simp_all [Caller.holdsWg, Caller.afterClose, Caller.pastLoop, Caller.joined]) <;> (try omega) <;> (try assumption)
  · split at h
    · cases h
      simp_all [Caller.holdsWg]
      omega
    · cases h
      constructor <;> (try simp_all [Caller.holdsWg, Caller.afterClose, Caller.pastLoop, Caller.joined]) <;> (try omega) <;> (try assumption)
  · split at h
    · cases h
      constructor <;> (try simp_all [Caller.holdsWg, Caller.afterClose, Caller.pastLoop, Caller.joined]) <;> (try omega) <;> (try assumption)
    · cases h
  · cases h
    constructor <;> (try simp_all [Caller.holdsWg, Caller.afterClose, Caller.pastLoop, Caller.joined]) <;> (try omega) <;> (try assumption)
  · cases h
    rename_i err hc
    have hj : aliveCount s.workers = 0 := h6 (by rw [hc]; rfl)
    have hw : s.wg = 0 := by rw [h2, hj, hc]; rfl
    constructor
    · exact h1
    · show s.wg + s.threads = (aliveCount (List.replicate (s.threads - 1).toNat Worker.range) : Int) + 1
      rw [aliveCount_replicate, hw]; omega
    · rfl
    · intro h; cases h
    · intro h
      show (false : Bool) = true
      simp only [Launch, aliveCount_replicate, List.length_replicate] at h
      omega
    · intro h; cases h
    · intro e h; cases h
    · rfl
    · exact h9
    · exact h10
    · show ((List.replicate (s.threads - 1).toNat (Worker.range : Worker ε)).length : Int) = s.threads - 1
      rw [List.length_replicate]; omega
    · show ((0 : Nat) : Int) ≤ s.bufsize
      omega

theorem winf_set {ε : Type} {ws : List (Worker ε)} {i : Nat} {w : Worker ε} (w' : Worker ε)
    (h : ws[i]? = some w) :
    winf (ws.set i w') + (w.inflight : Multiset Nat) = winf ws + (w'.inflight : Multiset Nat) :=
  sum_map_set (fun w => (w.inflight : Multiset Nat)) ws i w w' h

theorem wpend_set {ε : Type} {ws : List (Worker ε)} {i : Nat} {w : Worker ε} (w' : Worker ε)
    (h : ws[i]? = some w) :
    wpend (ws.set i w') + (w.pending : Multiset ε) = wpend ws + (w'.pending : Multiset ε) :=
  sum_map_set (fun w => (w.pending : Multiset ε)) ws i w w' h

theorem stepWorker_invB {ε : Type} {s s' : State ε} {i : Nat} (hA : InvA s) (hI : InvB s)
    (h : stepWorker s i = some s') : InvB s' := by
  obtain ⟨h1, h2, h3, h4, h5, h6, h7, h8⟩ := hI
  have hlen := hA.workers_len
  have ht : ∀ w, s.workers[i]? = some w → s.threads ≠ 1 := by
    intro w hw ht
    have : s.workers.length = 0 := by omega
    rw [List.length_eq_zero] at this
    rw [this] at hw; cases hw
  unfold stepWorker at h
  split at h
  · cases h
  · rename_i hw
    have ht := ht _ hw
    split at h
    · rename_i id task rest hb
      cases h
      have hs := winf_set (Worker.call id (task ((i : Int) + 1))) hw
      have hp := wpend_set (Worker.call id (task ((i : Int) + 1))) hw
      simp only [Worker.inflight, Worker.pending, Multiset.coe_nil, add_zero] at hs hp
      constructor <;> (try simp_all [setError, Log.ids, Log.errors]) <;> (try ((try simp only [← Multiset.coe_add, ← Multiset.cons_coe, ← Multiset.singleton_add, Multiset.coe_nil]); (try rw [h5]); (try rw [h2]); (try simp only [← Multiset.coe_add, ← Multiset.cons_coe, ← Multiset.singleton_add, Multiset.coe_nil]); abel))
    · split at h
      · split at h
        · cases h
          constructor <;> (try simp_all [setError, Log.ids, Log.errors]) <;> (try ((try simp only [← Multiset.coe_add, ← Multiset.cons_coe, ← Multiset.singleton_add, Multiset.coe_nil]); (try rw [h5]); (try rw [h2]); (try simp only [← Multiset.coe_add, ← Multiset.cons_coe, ← Multiset.singleton_add, Multiset.coe_nil]); abel))
        · rename_i hb _ _
          cases h
          have hs := winf_set (Worker.exited) hw
          have hp := wpend_set (Worker.exited) hw
          simp only [Worker.inflight, Worker.pending, Multiset.coe_nil, add_zero] at hs hp
          constructor <;> (try simp_all [setError, Log.ids, Log.errors]) <;> (try ((try simp only [← Multiset.coe_add, ← Multiset.cons_coe, ← Multiset.singleton_add, Multiset.coe_nil]); (try rw [h5]); (try rw [h2]); (try simp only [← Multiset.coe_add, ← Multiset.cons_coe, ← Multiset.singleton_add, Multiset.coe_nil]); abel))
      · cases h
  · rename_i id k hw
    have ht := ht _ hw
    cases h
    have hs := winf_set (Worker.call id (k (getError s))) hw
    have hp := wpend_set (Worker.call id (k (getError s))) hw
    simp only [Worker.inflight, Worker.pending, Multiset.coe_nil, add_zero] at hs hp
    constructor <;> (try simp_all [setError, Log.ids, Log.errors]) <;> (try ((try simp only [← Multiset.coe_add, ← Multiset.cons_coe, ← Multiset.singleton_add, Multiset.coe_nil]); (try rw [h5]); (try rw [h2]); (try simp only [← Multiset.coe_add, ← Multiset.cons_coe, ← Multiset.singleton_add, Multiset.coe_nil]); abel))
  · rename_i id hw
    have ht := ht _ hw
    cases h
    have hs := (winf_set (Worker.range) hw).symm
    have hp := wpend_set (Worker.range) hw
    simp only [Worker.inflight, Worker.pending, Multiset.coe_nil, add_zero] at hs hp
    constructor <;> (try simp_all [setError, Log.ids, Log.errors]) <;> (try ((try simp only [← Multiset.coe_add, ← Multiset.cons_coe, ← Multiset.singleton_add, Multiset.coe_nil]); (try rw [h5]); (try rw [h2]); (try simp only [← Multiset.coe_add, ← Multiset.cons_coe, ← Multiset.singleton_add, Multiset.coe_nil]); abel))
  · rename_i id err hw
    have ht := ht _ hw
    cases h
    have hs := (winf_set (Worker.seterr err) hw).symm
    have hp := wpend_set (Worker.seterr err) hw
    simp only [Worker.inflight, Worker.pending, Multiset.coe_nil, add_zero] at hs hp
    constructor <;> (try simp_all [setError, Log.ids, Log.errors]) <;> (try ((try simp only [← Multiset.coe_add, ← Multiset.cons_coe, ← Multiset.singleton_add, Multiset.coe_nil]); (try rw [h5]); (try rw [h2]); (try simp only [← Multiset.coe_add, ← Multiset.cons_coe, ← Multiset.singleton_add, Multiset.coe_nil]); abel))
  · rename_i err hw
    have ht := ht _ hw
    cases h
    have hs := winf_set (Worker.range) hw
    have hp := (wpend_set (Worker.range) hw).symm
    simp only [Worker.inflight, Worker.pending, Multiset.coe_nil, add_zero] at hs hp
    constructor <;> (try simp_all [setError, Log.ids, Log.errors]) <;> (try ((try simp only [← Multiset.coe_add, ← Multiset.cons_coe, ← Multiset.singleton_add, Multiset.coe_nil]); (try rw [h5]); (try rw [h2]); (try simp only [← Multiset.coe_add, ← Multiset.cons_coe, ← Multiset.singleton_add, Multiset.coe_nil]); abel))
  · cases h

theorem winf_replicate {ε : Type} (n : Nat) :
    winf (List.replicate n (Worker.range : Worker ε)) = 0 ∧
    wpend (List.replicate n (Worker.range : Worker ε)) = 0 := by
  induction n with
  | zero => exact ⟨rfl, rfl⟩
  | succ n ih =>
    obtain ⟨h1, h2⟩ := ih
    simp only [winf, wpend, List.replicate_succ, List.map_cons, List.sum_cons] at h1 h2 ⊢
    simp [h1, h2, Worker.inflight, Worker.pending]

theorem winf_of_not_alive {ε : Type} (ws : List (Worker ε)) (h : aliveCount ws = 0) :
    winf ws = 0 ∧ wpend ws = 0 := by
  induction ws with
  | nil => exact ⟨rfl, rfl⟩
  | cons a ws ih =>
    simp only [aliveCount, List.map_cons, List.sum_cons] at h
    have ha : a.alive = 0 := by omega
    obtain ⟨h1, h2⟩ := ih (by simp only [aliveCount]; omega)
    simp only [winf, wpend, List.map_cons, List.sum_cons] at h1 h2 ⊢
    cases a <;> simp_all [Worker.alive, Worker.inflight, Worker.pending]

theorem stepCaller_invB {ε : Type} {s s' : State ε} (hA : InvA s) (hI : InvB s)
    (h : stepCaller s = some s') : InvB s' := by
  obtain ⟨h1, h2, h3, h4, h5, h6, h7, h8⟩ := hI
  unfold stepCaller at h
  split at h
  · rename_i hc
    split at h
    · cases h
    · split at h
      · cases h
        constructor <;> (try simp_all [setError, Log.ids, Log.errors, Caller.inflight, Caller.pending]) <;> (try ((try simp only [← Multiset.coe_add, ← Multiset.cons_coe, ← Multiset.singleton_add, Multiset.coe_nil]); (try rw [h5]); (try rw [h2]); (try simp only [← Multiset.coe_add, ← Multiset.cons_coe, ← Multiset.singleton_add, Multiset.coe_nil]); abel)) <;> (try assumption)
      · split at h
        · cases h
          constructor <;> (try simp_all [setError, Log.ids, Log.errors, Caller.inflight, Caller.pending]) <;> (try ((try simp only [← Multiset.coe_add, ← Multiset.cons_coe, ← Multiset.singleton_add, Multiset.coe_nil]); (try rw [h5]); (try rw [h2]); (try simp only [← Multiset.coe_add, ← Multiset.cons_coe, ← Multiset.singleton_add, Multiset.coe_nil]); abel)) <;> (try assumption)
          · intro id hid
            rcases hid with hid | hid
            · have := h3 id hid; omega
            · omega
          · rw [List.nodup_append]
            refine ⟨h4, List.nodup_singleton _, ?_⟩
            intro a ha hb
            simp only [List.mem_singleton] at hb
            subst hb
            have := h3 _ ha; omega
        · cases h
    · cases h
      constructor <;> (try simp_all [setError, Log.ids, Log.errors, Caller.inflight, Caller.pending]) <;> (try ((try simp only [← Multiset.coe_add, ← Multiset.cons_coe, ← Multiset.singleton_add, Multiset.coe_nil]); (try rw [h5]); (try rw [h2]); (try simp only [← Multiset.coe_add, ← Multiset.cons_coe, ← Multiset.singleton_add, Multiset.coe_nil]); abel)) <;> (try assumption)
  · rename_i hc
    split at h
    · cases h
      constructor <;> (try simp_all [setError, Log.ids, Log.errors, Caller.inflight, Caller.pending]) <;> (try ((try simp only [← Multiset.coe_add, ← Multiset.cons_coe, ← Multiset.singleton_add, Multiset.coe_nil]); (try rw [h5]); (try rw [h2]); (try simp only [← Multiset.coe_add, ← Multiset.cons_coe, ← Multiset.singleton_add, Multiset.coe_nil]); abel)) <;> (try assumption)
    · split at h
      · cases h
        constructor <;> (try simp_all [setError, Log.ids, Log.errors, Caller.inflight, Caller.pending]) <;> (try ((try simp only [← Multiset.coe_add, ← Multiset.cons_coe, ← Multiset.singleton_add, Multiset.coe_nil]); (try rw [h5]); (try rw [h2]); (try simp only [← Multiset.coe_add, ← Multiset.cons_coe, ← Multiset.singleton_add, Multiset.coe_nil]); abel)) <;> (try assumption)
      · cases h
        constructor <;> (try simp_all [setError, Log.ids, Log.errors, Caller.inflight, Caller.pending]) <;> (try ((try simp only [← Multiset.coe_add, ← Multiset.cons_coe, ← Multiset.singleton_add, Multiset.coe_nil]); (try rw [h5]); (try rw [h2]); (try simp only [← Multiset.coe_add, ← Multiset.cons_coe, ← Multiset.singleton_add, Multiset.coe_nil]); abel)) <;> (try assumption)
  · cases h
    constructor <;> (try simp_all [setError, Log.ids, Log.errors, Caller.inflight, Caller.pending]) <;> (try ((try simp only [← Multiset.coe_add, ← Multiset.cons_coe, ← Multiset.singleton_add, Multiset.coe_nil]); (try rw [h5]); (try rw [h2]); (try simp only [← Multiset.coe_add, ← Multiset.cons_coe, ← Multiset.singleton_add, Multiset.coe_nil]); abel)) <;> (try assumption)
  · cases h
    constructor <;> (try simp_all [setError, Log.ids, Log.errors, Caller.inflight, Caller.pending]) <;> (try ((try simp only [← Multiset.coe_add, ← Multiset.cons_coe, ← Multiset.singleton_add, Multiset.coe_nil]); (try rw [h5]); (try rw [h2]); (try simp only [← Multiset.coe_add, ← Multiset.cons_coe, ← Multiset.singleton_add, Multiset.coe_nil]); abel)) <;> (try assumption)
  · cases h
    constructor <;> (try simp_all [setError, Log.ids, Log.errors, Caller.inflight, Caller.pending]) <;> (try ((try simp only [← Multiset.coe_add, ← Multiset.cons_coe, ← Multiset.singleton_add, Multiset.coe_nil]); (try rw [h5]); (try rw [h2]); (try simp only [← Multiset.coe_add, ← Multiset.cons_coe, ← Multiset.singleton_add, Multiset.coe_nil]); abel)) <;> (try assumption)
  · cases h
    constructor <;> (try simp_all [setError, Log.ids, Log.errors, Caller.inflight, Caller.pending]) <;> (try ((try simp only [← Multiset.coe_add, ← Multiset.cons_coe, ← Multiset.singleton_add, Multiset.coe_nil]); (try rw [h5]); (try rw [h2]); (try simp only [← Multiset.coe_add, ← Multiset.cons_coe, ← Multiset.singleton_add, Multiset.coe_nil]); abel)) <;> (try assumption)
  · split at h
    · cases h
      constructor <;> (try simp_all [setError, Log.ids, Log.errors, Caller.inflight, Caller.pending]) <;> (try ((try simp only [← Multiset.coe_add, ← Multiset.cons_coe, ← Multiset.singleton_add, Multiset.coe_nil]); (try rw [h5]); (try rw [h2]); (try simp only [← Multiset.coe_add, ← Multiset.cons_coe, ← Multiset.singleton_add, Multiset.coe_nil]); abel)) <;> (try assumption)
    · cases h
      constructor <;> (try simp_all [setError, Log.ids, Log.errors, Caller.inflight, Caller.pending]) <;> (try ((try simp only [← Multiset.coe_add, ← Multiset.cons_coe, ← Multiset.singleton_add, Multiset.coe_nil]); (try rw [h5]); (try rw [h2]); (try simp only [← Multiset.coe_add, ← Multiset.cons_coe, ← Multiset.singleton_add, Multiset.coe_nil]); abel)) <;> (try assumption)
  · split at h
    · cases h
      constructor <;> (try simp_all [setError, Log.ids, Log.errors, Caller.inflight, Caller.pending]) <;> (try ((try simp only [← Multiset.coe_add, ← Multiset.cons_coe, ← Multiset.singleton_add, Multiset.coe_nil]); (try rw [h5]); (try rw [h2]); (try simp only [← Multiset.coe_add, ← Multiset.cons_coe, ← Multiset.singleton_add, Multiset.coe_nil]); abel)) <;> (try assumption)
    · cases h
      constructor <;> (try simp_all [setError, Log.ids, Log.errors, Caller.inflight, Caller.pending]) <;> (try ((try simp only [← Multiset.coe_add, ← Multiset.cons_coe, ← Multiset.singleton_add, Multiset.coe_nil]); (try rw [h5]); (try rw [h2]); (try simp only [← Multiset.coe_add, ← Multiset.cons_coe, ← Multiset.singleton_add, Multiset.coe_nil]); abel)) <;> (try assumption)
  · split at h
    · cases h
      constructor <;> (try simp_all [setError, Log.ids, Log.errors, Caller.inflight, Caller.pending]) <;> (try ((try simp only [← Multiset.coe_add, ← Multiset.cons_coe, ← Multiset.singleton_add, Multiset.coe_nil]); (try rw [h5]); (try rw [h2]); (try simp only [← Multiset.coe_add, ← Multiset.cons_coe, ← Multiset.singleton_add, Multiset.coe_nil]); abel)) <;> (try assumption)
    · cases h
  · cases h
    constructor <;> (try simp_all [setError, Log.ids, Log.errors, Caller.inflight, Caller.pending]) <;> (try ((try simp only [← Multiset.coe_add, ← Multiset.cons_coe, ← Multiset.singleton_add, Multiset.coe_nil]); (try rw [h5]); (try rw [h2]); (try simp only [← Multiset.coe_add, ← Multiset.cons_coe, ← Multiset.singleton_add, Multiset.coe_nil]); abel)) <;> (try assumption)
  · rename_i err hc
    cases h
    have hj : aliveCount s.workers = 0 := hA.joined (by rw [hc]; rfl)
    have hb : s.channel.buf = [] := hA.drained (by rw [hc]; rfl)
    have he : err = s.errmsg := hA.read_err err hc
    obtain ⟨hw1, hw2⟩ := winf_of_not_alive _ hj
    obtain ⟨hr1, hr2⟩ := winf_replicate (ε := ε) (s.threads - 1).toNat
    rw [hc, hw1, hb] at h2
    rw [hc, hw2] at h5
    simp only [Caller.inflight, Caller.pending, List.map_nil, Multiset.coe_nil, add_zero] at h2 h5
    have hgood : Good (s.log, err) :=
      ⟨by rw [he, h1], (Multiset.coe_eq_coe.1 h2).symm, h4, Multiset.coe_eq_coe.1 h5⟩
    constructor
    · rfl
    · show ((([] : List Nat) : Multiset Nat)) = _
      simp only [Launch, Log.ids, List.map_nil, Caller.inflight, hr1, Multiset.coe_nil, add_zero]
    · intro id hid; cases hid
    · exact List.nodup_nil
    · show ((([] : List ε) : Multiset ε)) = _
      simp only [Launch, Log.errors, List.filterMap_nil, Caller.pending, hr2, Multiset.coe_nil,
        add_zero]
    · intro g hg
      rcases List.mem_append.1 hg with hg | hg
      · exact h6 g hg
      · rw [List.mem_singleton.1 hg]; exact hgood
    · intro _
      exact ⟨rfl, rfl⟩
    · intro ht g hg
      rcases List.mem_append.1 hg with hg | hg
      · exact h8 ht g hg
      · rw [List.mem_singleton.1 hg]
        obtain ⟨f1, f2⟩ := h7 ht
        rw [hc, hb] at f1
        rw [hc] at f2
        simp only [Caller.inflight, Caller.pending, List.map_nil, List.append_nil] at f1 f2
        exact ⟨f1.symm, f2⟩

/-- Both invariants together. -/
theorem step_inv {ε : Type} {s s' : State ε} {tid : Nat} (hA : InvA s) (hB : InvB s)
    (h : step s tid = some s') : InvA s' ∧ InvB s' := by
  unfold step at h
  split at h
  · cases h
  · cases tid with
    | zero => exact ⟨stepCaller_invA hA h, stepCaller_invB hA hB h⟩
    | succ i => exact ⟨stepWorker_invA hA h, stepWorker_invB hA hB h⟩

theorem run_inv {ε : Type} : ∀ (sched : List Nat) (s s' : State ε), InvA s → InvB s →
    run s sched = some s' → InvA s' ∧ InvB s' := by
  intro sched
  induction sched with
  | nil =>
    intro s s' hA hB h
    simp only [run, Option.some.injEq] at h
    subst h
    exact ⟨hA, hB⟩
  | cons tid rest ih =>
    intro s s' hA hB h
    simp only [run] at h
    split at h
    · cases h
    · rename_i s1 hs1
      obtain ⟨hA1, hB1⟩ := step_inv hA hB hs1
      exact ih s1 s' hA1 hB1 h

theorem start_inv {ε : Type} {threads bufsize : Int} {prog : List (Op ε)} {s : State ε}
    (h : start threads bufsize prog = Except.ok s) : InvA s ∧ InvB s := by
  unfold start NewThreadPool at h
  by_cases h1 : threads < 1
  · simp [h1, Except.map] at h
  · by_cases h2 : bufsize < 1
    · simp [h1, h2, Except.map] at h
    · simp only [h1, h2, if_false, Except.map, Except.ok.injEq] at h
      subst h
      have hr1 : ∀ n, winf (List.replicate n (Worker.range : Worker ε)) = 0 :=
        fun n => (winf_replicate n).1
      have hr2 : ∀ n, wpend (List.replicate n (Worker.range : Worker ε)) = 0 :=
        fun n => (winf_replicate n).2
      constructor
      · constructor <;>
          simp [Launch, aliveCount_replicate, Caller.holdsWg, Caller.afterClose, Caller.pastLoop,
            Caller.joined] <;> omega
      · constructor <;>
          simp [Launch, hr1, hr2, Log.ids, Log.errors, Caller.inflight, Caller.pending]

theorem stepWorker_invC {ε : Type} {N M : Nat} {s s' : State ε} {i : Nat} (hA : InvA s)
    (hI : InvC N M s) (h : stepWorker s i = some s') : InvC N M s' := by
  obtain ⟨h1, h2, h3⟩ := hI
  have hlen := hA.workers_len
  have ht : ∀ w, s.workers[i]? = some w → s.threads ≠ 1 := by
    intro w hw ht
    have : s.workers.length = 0 := by omega
    rw [List.length_eq_zero] at this
    rw [this] at hw; cases hw
  unfold stepWorker at h
  split at h
  · cases h
  · rename_i hw
    have ht := ht _ hw
    split at h
    · cases h
      constructor <;> simp_all
    · split at h
      · split at h
        · cases h
          constructor <;> simp_all
        · cases h
          constructor <;> simp_all
      · cases h
  · rename_i id k hw
    have ht := ht _ hw
    cases h
    constructor <;> simp_all
  · rename_i id hw
    have ht := ht _ hw
    cases h
    constructor <;> simp_all
  · rename_i id err hw
    have ht := ht _ hw
    cases h
    constructor <;> simp_all
  · rename_i err hw
    have ht := ht _ hw
    cases h
    constructor <;> simp_all [setError]
  · cases h

theorem stepCaller_invC {ε : Type} {N M : Nat} {s s' : State ε} (hA : InvA s)
    (hI : InvC N M s) (h : stepCaller s = some s') : InvC N M s' := by
  obtain ⟨h1, h2, h3⟩ := hI
  unfold stepCaller at h
  split at h
  · rename_i hc
    split at h
    · cases h
    · split at h
      · cases h
        constructor <;> simp_all [Caller.isIdle, fits, countWaits, countAdds, submittedBefore]
      · split at h
        · cases h
          constructor <;> simp_all [Caller.isIdle, fits, countWaits, countAdds, submittedBefore]
          · intro ht
            have := (h1 ht).2
            have e : s.bufsize - ((s.channel.buf.length : Int) + 1)
                = s.bufsize - (s.channel.buf.length : Int) - 1 := by ring
            rw [e]; exact this
          · omega
        · cases h
    · cases h
      constructor <;> simp_all [Caller.isIdle, fits, countWaits, countAdds, submittedBefore]
      omega
  · rename_i hc
    split at h
    · cases h
      constructor <;> simp_all [Caller.isIdle, fits, countWaits, countAdds, submittedBefore]
    · split at h
      · cases h
        constructor <;> simp_all [Caller.isIdle, fits, countWaits, countAdds, submittedBefore]
      · cases h
        constructor <;> simp_all [Caller.isIdle, fits, countWaits, countAdds, submittedBefore]
  · cases h
    constructor <;> simp_all [Caller.isIdle, fits, countWaits, countAdds, submittedBefore]
  · cases h
    constructor <;> simp_all [Caller.isIdle, fits, countWaits, countAdds, submittedBefore]
  · cases h
    constructor <;> simp_all [Caller.isIdle, fits, countWaits, countAdds, submittedBefore]
  · cases h
    constructor <;> simp_all [setError, Caller.isIdle, fits, countWaits, countAdds, submittedBefore]
  · split at h
    · cases h
      constructor <;> simp_all [Caller.isIdle, fits, countWaits, countAdds, submittedBefore]
    · cases h
      constructor <;> simp_all [Caller.isIdle, fits, countWaits, countAdds, submittedBefore]
  · split at h
    · cases h
      constructor <;> simp_all [Caller.isIdle, fits, countWaits, countAdds, submittedBefore]
    · cases h
      constructor <;> simp_all [Caller.isIdle, fits, countWaits, countAdds, submittedBefore]
  · split at h
    · cases h
      constructor <;> simp_all [Caller.isIdle, fits, countWaits, countAdds, submittedBefore]
    · cases h
  · cases h
    constructor <;> simp_all [Caller.isIdle, fits, countWaits, countAdds, submittedBefore]
  · cases h
    constructor <;> simp_all [Launch, Caller.isIdle, fits, countWaits, countAdds, submittedBefore]
    omega

theorem exists_alive {ε : Type} : ∀ (ws : List (Worker ε)), 1 ≤ aliveCount ws →
    ∃ (i : Nat) (w : Worker ε), ws[i]? = some w ∧ w.alive = 1 := by
  intro ws
  induction ws with
  | nil => intro h; simp [aliveCount] at h
  | cons a ws ih =>
    intro h
    by_cases ha : a.alive = 1
    · exact ⟨0, a, by simp, ha⟩
    · have h0 : a.alive = 0 := by
        cases a <;> simp_all [Worker.alive]
      simp only [aliveCount, List.map_cons, List.sum_cons, h0, zero_add] at h
      obtain ⟨i, w, hw, hw1⟩ := ih h
      exact ⟨i + 1, w, by simpa using hw, hw1⟩

theorem stepWorker_enabled {ε : Type} {s : State ε} {i : Nat} {w : Worker ε}
    (hw : s.workers[i]? = some w) (ha : w.alive = 1)
    (hb : s.channel.buf ≠ [] ∨ s.channel.closed = true) :
    ∃ s', stepWorker s i = some s' := by
  unfold stepWorker
  rw [hw]
  cases w with
  | range =>
    cases hbuf : s.channel.buf with
    | nil =>
      have hc : s.channel.closed = true := by
        rcases hb with hb | hb
        · exact absurd hbuf hb
        · exact hb
      simp only [hc, if_true]
      split <;> exact ⟨_, rfl⟩
    | cons x rest =>
      obtain ⟨id, task⟩ := x
      exact ⟨_, rfl⟩
  | call id p =>
    cases p with
    | ret err =>
      cases err with
      | none => exact ⟨_, rfl⟩
      | some e => exact ⟨_, rfl⟩
    | probe k => exact ⟨_, rfl⟩
  | seterr err => exact ⟨_, rfl⟩
  | exited => simp [Worker.alive] at ha

/-- Absence of deadlock: in a state that satisfies the invariants, some thread can move
unless the program has come to its end. -/
theorem progress {ε : Type} {N M : Nat} {s : State ε} (hA : InvA s) (hC : InvC N M s)
    (hnf : ¬ s.finishedRun) : ∃ tid s', step s tid = some s' := by
  have hp := hA.notPanicked
  have hcl := hA.closed_eq
  have hwg := hA.wg_eq
  have worker : ∀ (i : Nat) (w : Worker ε), s.workers[i]? = some w → w.alive = 1 →
      (s.channel.buf ≠ [] ∨ s.channel.closed = true) → ∃ tid s', step s tid = some s' := by
    intro i w hw ha hb
    obtain ⟨s', hs'⟩ := stepWorker_enabled hw ha hb
    exact ⟨i + 1, s', by simp only [step, hp]; exact hs'⟩
  have caller : (stepCaller s).isSome = true → ∃ tid s', step s tid = some s' := by
    intro h
    obtain ⟨s', hs'⟩ := Option.isSome_iff_exists.1 h
    exact ⟨0, s', by simp only [step, hp]; exact hs'⟩
  cases hc : s.caller with
  | idle =>
    rw [hc] at hcl hwg
    cases hprog : s.prog with
    | nil => exact absurd ⟨by rw [hc]; rfl, hprog⟩ hnf
    | cons op rest =>
      cases op with
      | Wait => exact caller (by simp [stepCaller, hc, hprog])
      | AddTask task =>
        by_cases hfull : (s.channel.buf.length : Int) < s.channel.cap
        · exact caller (by simp [stepCaller, hc, hprog, hcl, Caller.afterClose, hfull])
        · have hcap := hA.cap_eq
          have hpos := hA.bufsize_pos
          by_cases ht : s.threads = 1
          · have := hC.fit ht
            rw [hc, hprog] at this
            simp only [Caller.isIdle, if_true, fits, Bool.and_eq_true, decide_eq_true_eq] at this
            omega
          · have hlen := hA.workers_len
            have hthr := hA.threads_pos
            have hall : ¬ aliveCount s.workers < s.workers.length := by
              intro hlt
              have := hA.exited_closed hlt
              rw [hcl] at this
              cases this
            have hle := aliveCount_le s.workers
            obtain ⟨i, w, hw, ha⟩ := exists_alive s.workers (by omega)
            refine worker i w hw ha (Or.inl ?_)
            intro hnil
            rw [hnil] at hfull
            simp at hfull
            omega
  | select =>
    rw [hc] at hcl
    cases hb : s.channel.buf with
    | nil => exact caller (by simp [stepCaller, hc, hb, hcl, Caller.afterClose])
    | cons x rest =>
      obtain ⟨id, task⟩ := x
      exact caller (by simp [stepCaller, hc, hb])
  | call id p =>
    cases p with
    | ret err =>
      cases err with
      | none => exact caller (by simp [stepCaller, hc])
      | some e => exact caller (by simp [stepCaller, hc])
    | probe k => exact caller (by simp [stepCaller, hc])
  | seterr err => exact caller (by simp [stepCaller, hc])
  | close =>
    rw [hc] at hcl
    exact caller (by simp [stepCaller, hc, hcl, Caller.afterClose])
  | done =>
    by_cases hlt : s.wg - 1 < 0
    · exact caller (by simp [stepCaller, hc, hlt, if_true])
    · exact caller (by simp [stepCaller, hc, hlt, if_false])
  | wait =>
    rw [hc] at hcl hwg
    by_cases h0 : s.wg = 0
    · exact caller (by simp [stepCaller, hc, h0, if_true])
    · simp only [Caller.holdsWg] at hwg
      have hwg' : s.wg = (aliveCount s.workers : Int) := by simpa using hwg
      obtain ⟨i, w, hw, ha⟩ := exists_alive s.workers (by omega)
      exact worker i w hw ha (Or.inr (by rw [hcl]; rfl))
  | read => exact caller (by simp [stepCaller, hc])
  | launch err => exact caller (by simp [stepCaller, hc])

theorem workerLt_acc_exited {ε : Type} : Acc Worker.Lt (Worker.exited : Worker ε) :=
  Acc.intro _ (fun y h => by cases h)

theorem workerLt_acc_range {ε : Type} : Acc Worker.Lt (Worker.range : Worker ε) :=
  Acc.intro _ (fun y h => by cases h; exact workerLt_acc_exited)

theorem workerLt_acc_seterr {ε : Type} (err : ε) : Acc Worker.Lt (Worker.seterr err) :=
  Acc.intro _ (fun y h => by cases h; exact workerLt_acc_range)

theorem workerLt_acc_call {ε : Type} (id : Nat) (p : Proc ε) : Acc Worker.Lt (Worker.call id p) := by
  induction p with
  | ret err =>
    refine Acc.intro _ (fun y h => ?_)
    cases h
    · exact workerLt_acc_range
    · exact workerLt_acc_seterr _
  | probe k ih =>
    refine Acc.intro _ (fun y h => ?_)
    cases h
    exact ih _

theorem workerLt_wf {ε : Type} : WellFounded (Worker.Lt (ε := ε)) :=
  ⟨fun w => by
    cases w with
    | range => exact workerLt_acc_range
    | call id p => exact workerLt_acc_call id p
    | seterr err => exact workerLt_acc_seterr err
    | exited => exact workerLt_acc_exited⟩

theorem callerLt_acc_select {ε : Type} : Acc Caller.Lt (Caller.select : Caller ε) :=
  Acc.intro _ (fun y h => by cases h)

theorem callerLt_acc_seterr {ε : Type} (err : ε) : Acc Caller.Lt (Caller.seterr err) :=
  Acc.intro _ (fun y h => by cases h; exact callerLt_acc_select)

theorem callerLt_acc_call {ε : Type} (id : Nat) (p : Proc ε) : Acc Caller.Lt (Caller.call id p) := by
  induction p with
  | ret err =>
    refine Acc.intro _ (fun y h => ?_)
    cases h
    · exact callerLt_acc_select
    · exact callerLt_acc_seterr _
  | probe k ih =>
    refine Acc.intro _ (fun y h => ?_)
    cases h
    exact ih _

theorem callerLt_wf {ε : Type} : WellFounded (Caller.Lt (ε := ε)) :=
  ⟨fun c => by
    cases c with
    | select => exact callerLt_acc_select
    | call id p => exact callerLt_acc_call id p
    | seterr err => exact callerLt_acc_seterr err
    | idle => exact Acc.intro _ (fun y h => by cases h)
    | close => exact Acc.intro _ (fun y h => by cases h)
    | done => exact Acc.intro _ (fun y h => by cases h)
    | wait => exact Acc.intro _ (fun y h => by cases h)
    | read => exact Acc.intro _ (fun y h => by cases h)
    | launch err => exact Acc.intro _ (fun y h => by cases h)⟩

theorem listLt_acc_cons {α : Type} {r : α → α → Prop} {a : α} (ha : Acc r a) :
    ∀ {ws : List α}, Acc (ListLt r) ws → Acc (ListLt r) (a :: ws) := by
  induction ha with
  | intro a _ iha =>
    intro ws hws
    induction hws with
    | intro ws hacc ihws =>
      refine Acc.intro _ (fun l hl => ?_)
      obtain ⟨i, w, w', hget, hr, rfl⟩ := hl
      cases i with
      | zero =>
        simp only [List.getElem?_cons_zero, Option.some.injEq] at hget
        subst hget
        exact iha w' hr (Acc.intro ws hacc)
      | succ i =>
        simp only [List.getElem?_cons_succ] at hget
        exact ihws (ws.set i w') ⟨i, w, w', hget, hr, rfl⟩

theorem listLt_wf {α : Type} {r : α → α → Prop} (hr : WellFounded r) :
    WellFounded (ListLt r) :=
  ⟨fun ws => by
    induction ws with
    | nil =>
      refine Acc.intro _ (fun l hl => ?_)
      obtain ⟨i, w, w', hget, -, -⟩ := hl
      simp at hget
    | cons a ws ih => exact listLt_acc_cons (hr.apply a) ih⟩

theorem measureLt_wf {ε : Type} : WellFounded (MeasureLt (ε := ε)) :=
  WellFounded.prod_lex wellFounded_lt
    (WellFounded.prod_lex wellFounded_lt
      (WellFounded.prod_lex wellFounded_lt
        (WellFounded.prod_gameAdd callerLt_wf (listLt_wf workerLt_wf))))

theorem stepWorker_measure {ε : Type} {s s' : State ε} {i : Nat} (hp : s.panicked = false)
    (h : stepWorker s i = some s') : MeasureLt (measure s') (measure s) := by
  have loc : ∀ (w w' : Worker ε) (t : State ε), s.workers[i]? = some w → Worker.Lt w' w →
      t.panicked = s.panicked → t.prog = s.prog → t.caller = s.caller →
      t.channel.buf = s.channel.buf → t.workers = s.workers.set i w' →
      MeasureLt (measure t) (measure s) := by
    intro w w' t hw hlt e1 e2 e3 e4 e5
    simp only [measure, MeasureLt, e1, e2, e3, e4, e5]
    exact Prod.Lex.right _ (Prod.Lex.right _ (Prod.Lex.right _
      (Prod.GameAdd.snd ⟨i, w, w', hw, hlt, rfl⟩)))
  unfold stepWorker at h
  split at h
  · cases h
  · rename_i hw
    split at h
    · rename_i id task rest hb
      cases h
      simp only [measure, MeasureLt, hb]
      exact Prod.Lex.right _ (Prod.Lex.right _ (Prod.Lex.left _ _ (by simp)))
    · split at h
      · split at h
        · cases h
          simp only [measure, MeasureLt, hp]
          exact Prod.Lex.left _ _ (by simp)
        · cases h
          exact loc _ _ _ hw Worker.Lt.exit rfl rfl rfl rfl rfl
      · cases h
  · rename_i id k hw
    cases h
    exact loc _ _ _ hw (Worker.Lt.probe id k _) rfl rfl rfl rfl rfl
  · rename_i id hw
    cases h
    exact loc _ _ _ hw (Worker.Lt.retNone id) rfl rfl rfl rfl rfl
  · rename_i id err hw
    cases h
    exact loc _ _ _ hw (Worker.Lt.retSome id err) rfl rfl rfl rfl rfl
  · rename_i err hw
    cases h
    exact loc _ _ _ hw (Worker.Lt.seterr err) rfl rfl rfl rfl rfl
  · cases h

theorem stepCaller_measure {ε : Type} {s s' : State ε} (hp : s.panicked = false)
    (h : stepCaller s = some s') : MeasureLt (measure s') (measure s) := by
  have num : ∀ (t : State ε), t.panicked = s.panicked →
      10 * t.prog.length + t.caller.rank < 10 * s.prog.length + s.caller.rank →
      MeasureLt (measure t) (measure s) := by
    intro t e1 hlt
    simp only [measure, MeasureLt, e1]
    exact Prod.Lex.right _ (Prod.Lex.left _ _ hlt)
  have pan : ∀ (t : State ε), t.panicked = true → MeasureLt (measure t) (measure s) := by
    intro t e1
    simp only [measure, MeasureLt, e1, hp]
    exact Prod.Lex.left _ _ (by simp)
  have loc : ∀ (c' : Caller ε) (t : State ε), Caller.Lt c' s.caller →
      t.panicked = s.panicked → t.prog = s.prog → c'.rank = s.caller.rank → t.caller = c' →
      t.channel.buf = s.channel.buf → t.workers = s.workers →
      MeasureLt (measure t) (measure s) := by
    intro c' t hlt e1 e2 e3 e4 e5 e6
    simp only [measure, MeasureLt, e1, e2, e4, e3, e5, e6]
    exact Prod.Lex.right _ (Prod.Lex.right _ (Prod.Lex.right _ (Prod.GameAdd.fst hlt)))
  unfold stepCaller at h
  split at h
  · rename_i hc
    split at h
    · cases h
    · rename_i task rest hprog
      split at h
      · cases h; exact pan _ rfl
      · split at h
        · cases h
          exact num _ rfl (by simp only [hprog, hc, List.length_cons]; omega)
        · cases h
    · rename_i rest hprog
      cases h
      exact num _ rfl (by simp only [hprog, hc, List.length_cons, Caller.rank]; omega)
  · rename_i hc
    split at h
    · rename_i id task rest hb
      cases h
      simp only [measure, MeasureLt, hb, hc, Caller.rank]
      exact Prod.Lex.right _ (Prod.Lex.right _ (Prod.Lex.left _ _ (by simp)))
    · split at h
      · cases h; exact pan _ rfl
      · cases h
        exact num _ rfl (by simp only [hc, Caller.rank]; omega)
  · rename_i id k hc
    cases h
    exact loc _ _ (by rw [hc]; exact Caller.Lt.probe id k _) rfl rfl (by rw [hc]; rfl) rfl rfl rfl
  · rename_i id hc
    cases h
    exact loc _ _ (by rw [hc]; exact Caller.Lt.retNone id) rfl rfl (by rw [hc]; rfl) rfl rfl rfl
  · rename_i id err hc
    cases h
    exact loc _ _ (by rw [hc]; exact Caller.Lt.retSome id err) rfl rfl (by rw [hc]; rfl) rfl rfl rfl
  · rename_i err hc
    cases h
    exact loc _ _ (by rw [hc]; exact Caller.Lt.seterr err) rfl rfl (by rw [hc]; rfl) rfl rfl rfl
  · rename_i hc
    split at h
    · cases h; exact pan _ rfl
    · cases h
      exact num _ rfl (by simp only [hc, Caller.rank]; omega)
  · rename_i hc
    split at h
    · cases h; exact pan _ rfl
    · cases h
      exact num _ rfl (by simp only [hc, Caller.rank]; omega)
  · rename_i hc
    split at h
    · cases h
      exact num _ rfl (by simp only [hc, Caller.rank]; omega)
    · cases h
  · rename_i hc
    cases h
    exact num _ rfl (by simp only [hc, Caller.rank]; omega)
  · rename_i err hc
    cases h
    exact num _ rfl (by simp only [hc, Launch, Caller.rank]; omega)

/-- Every transition makes the measure smaller. -/
theorem step_measure {ε : Type} {s s' : State ε} {tid : Nat} (h : step s tid = some s') :
    MeasureLt (measure s') (measure s) := by
  unfold step at h
  split at h
  · cases h
  · rename_i hp
    have hp' : s.panicked = false := by simpa using hp
    cases tid with
    | zero => exact stepCaller_measure hp' h
    | succ i => exact stepWorker_measure hp' h

/-- No run is infinite: the transition relation is well-founded. -/
theorem next_wf {ε : Type} : WellFounded (Next (ε := ε)) := by
  apply Subrelation.wf (r := InvImage MeasureLt measure)
  · intro s' s h
    obtain ⟨tid, h⟩ := h
    exact step_measure h
  · exact InvImage.wf measure measureLt_wf

/-- No transition changes the fields `threads` and `bufsize`. -/
theorem step_config {ε : Type} {s s' : State ε} {tid : Nat} (h : step s tid = some s') :
    s'.threads = s.threads ∧ s'.bufsize = s.bufsize := by
  unfold step at h
  split at h
  · cases h
  · cases tid with
    | zero =>
      simp only at h
      unfold stepCaller at h
      repeat' split at h
      all_goals first
        | (cases h; exact ⟨rfl, rfl⟩)
        | cases h
    | succ i =>
      simp only at h
      unfold stepWorker at h
      repeat' split at h
      all_goals first
        | (cases h; exact ⟨rfl, rfl⟩)
        | cases h

theorem run_config {ε : Type} : ∀ (sched : List Nat) (s s' : State ε),
    run s sched = some s' → s'.threads = s.threads ∧ s'.bufsize = s.bufsize := by
  intro sched
  induction sched with
  | nil =>
    intro s s' h
    simp only [run, Option.some.injEq] at h
    subst h
    exact ⟨rfl, rfl⟩
  | cons tid rest ih =>
    intro s s' h
    simp only [run] at h
    split at h
    · cases h
    · rename_i s1 hs1
      obtain ⟨h1, h2⟩ := step_config hs1
      obtain ⟨h3, h4⟩ := ih s1 s' h
      exact ⟨h3.trans h1, h4.trans h2⟩

theorem step_invC {ε : Type} {N M : Nat} {s s' : State ε} {tid : Nat} (hA : InvA s)
    (hC : InvC N M s) (h : step s tid = some s') : InvC N M s' := by
  unfold step at h
  split at h
  · cases h
  · cases tid with
    | zero => exact stepCaller_invC hA hC h
    | succ i => exact stepWorker_invC hA hC h

theorem run_invC {ε : Type} {N M : Nat} : ∀ (sched : List Nat) (s s' : State ε), InvA s → InvB s →
    InvC N M s → run s sched = some s' → InvC N M s' := by
  intro sched
  induction sched with
  | nil =>
    intro s s' hA hB hC h
    simp only [run, Option.some.injEq] at h
    subst h
    exact hC
  | cons tid rest ih =>
    intro s s' hA hB hC h
    simp only [run] at h
    split at h
    · cases h
    · rename_i s1 hs1
      obtain ⟨hA1, hB1⟩ := step_inv hA hB hs1
      exact ih s1 s' hA1 hB1 (step_invC hA hC hs1) h

theorem start_config {ε : Type} {threads bufsize : Int} {prog : List (Op ε)} {s : State ε}
    (h : start threads bufsize prog = Except.ok s) :
    s.threads = threads ∧ s.bufsize = bufsize ∧ s.prog = prog ∧ s.caller = Caller.idle ∧
      s.channel.buf = [] ∧ s.finished = [] ∧ s.log.submitted = [] := by
  unfold start NewThreadPool at h
  by_cases h1 : threads < 1
  · simp [h1, Except.map] at h
  · by_cases h2 : bufsize < 1
    · simp [h1, h2, Except.map] at h
    · simp only [h1, h2, if_false, Except.map, Except.ok.injEq] at h
      subst h
      exact ⟨rfl, rfl, rfl, rfl, rfl, rfl, rfl⟩

theorem start_invC {ε : Type} {threads bufsize : Int} {prog : List (Op ε)} {s : State ε}
    (h : start threads bufsize prog = Except.ok s)
    (hfit : threads = 1 → fits bufsize bufsize prog = true) :
    InvC (countWaits prog) (countAdds prog) s := by
  obtain ⟨h1, h2, h3, h4, h5, h6, h7⟩ := start_config h
  constructor
  · intro ht
    rw [h4, h5, h2, h3]
    simp only [Caller.isIdle, if_true, List.length_nil, Int.ofNat_zero, sub_zero]
    exact hfit (h1 ▸ ht)
  · rw [h6, h3, h4]
    simp [Caller.isIdle]
  · rw [h6, h7, h3]
    simp [submittedBefore]

theorem run_append {ε : Type} : ∀ (a b : List Nat) (s s1 s2 : State ε),
    run s a = some s1 → run s1 b = some s2 → run s (a ++ b) = some s2 := by
  intro a
  induction a with
  | nil =>
    intro b s s1 s2 h1 h2
    simp only [run, Option.some.injEq] at h1
    subst h1
    exact h2
  | cons tid rest ih =>
    intro b s s1 s2 h1 h2
    simp only [run, List.cons_append] at h1 ⊢
    split at h1
    · cases h1
    · rename_i s' hs'
      exact ih b s' s1 s2 h1 h2

/-- From a state that satisfies the invariants, some schedule brings the program to its
end. -/
theorem reaches_end {ε : Type} {N M : Nat} : ∀ (s : State ε), InvA s → InvB s → InvC N M s →
    ∃ sched s', run s sched = some s' ∧ s'.finishedRun := by
  intro s
  induction s using next_wf.induction with
  | _ s ih =>
    intro hA hB hC
    by_cases hf : s.finishedRun
    · exact ⟨[], s, rfl, hf⟩
    · obtain ⟨tid, s1, h1⟩ := progress hA hC hf
      obtain ⟨hA1, hB1⟩ := step_inv hA hB h1
      obtain ⟨sched, s2, h2, hf2⟩ := ih s1 ⟨tid, h1⟩ hA1 hB1 (step_invC hA hC h1)
      exact ⟨tid :: sched, s2, by simp only [run, h1]; exact h2, hf2⟩

theorem errors_nil_of_all_none {ε : Type} (l : Log ε) (h : ∀ x ∈ l.executed, x.2.2 = none) :
    l.errors = [] := by
  unfold Log.errors
  rw [List.filterMap_eq_nil_iff]
  exact h

/-- What `Good` gives about the value returned by `Wait`. -/
theorem good_result {ε : Type} {g : Log ε × Option ε} (hg : Good g) :
    g.2 = g.1.recorded.getLast? ∧
    (g.1.errors = [] → g.2 = none) ∧
    (g.1.errors ≠ [] → ∃ e, g.2 = some e ∧ e ∈ g.1.errors) ∧
    (∀ e, g.1.errors = [e] → g.2 = some e) := by
  obtain ⟨h1, -, -, h4⟩ := hg
  refine ⟨h1, ?_, ?_, ?_⟩
  · intro he
    rw [he] at h4
    rw [h1, List.nil_perm.1 h4]
    rfl
  · intro he
    have hr : g.1.recorded ≠ [] := by
      intro hr
      rw [hr] at h4
      exact he (List.perm_nil.1 h4)
    refine ⟨g.1.recorded.getLast hr, ?_, ?_⟩
    · rw [h1, List.getLast?_eq_getLast _ hr]
    · exact h4.symm.subset (List.getLast_mem hr)
  · intro e he
    rw [he] at h4
    rw [h1, ← List.singleton_perm.1 h4]
    rfl

/-- What `Good` gives about the tasks executed. -/
theorem good_once {ε : Type} {g : Log ε × Option ε} (hg : Good g) :
    g.1.ids.Perm g.1.submitted ∧ g.1.submitted.Nodup ∧
    (∀ id ∈ g.1.submitted, g.1.ids.count id = 1) ∧
    (∀ id ∈ g.1.ids, id ∈ g.1.submitted) ∧
    g.1.ids.length = g.1.submitted.length ∧
    g.1.recorded.Perm g.1.errors := by
  obtain ⟨-, h2, h3, h4⟩ := hg
  refine ⟨h2, h3, ?_, ?_, h2.length_eq, h4.symm⟩
  · intro id hid
    rw [h2.count_eq]
    exact List.count_eq_one_of_mem h3 hid
  · intro id hid
    exact h2.subset hid

/-- Every state reached from a new pool satisfies the three invariants and has the
`threads` and `bufsize` the pool was created with. -/
theorem reach_facts {ε : Type} {threads bufsize : Int} {prog : List (Op ε)} {s0 s : State ε}
    (h0 : start threads bufsize prog = Except.ok s0)
    (hfit : threads = 1 → fits bufsize bufsize prog = true)
    {sched : List Nat} (hrun : run s0 sched = some s) :
    InvA s ∧ InvB s ∧ InvC (countWaits prog) (countAdds prog) s ∧ s.threads = threads ∧
      s.bufsize = bufsize := by
  obtain ⟨hA0, hB0⟩ := start_inv h0
  have hC0 := start_invC h0 hfit
  obtain ⟨hA, hB⟩ := run_inv sched s0 s hA0 hB0 hrun
  have hC := run_invC sched s0 s hA0 hB0 hC0 hrun
  obtain ⟨c1, c2⟩ := run_config sched s0 s hrun
  obtain ⟨d1, d2, -⟩ := start_config h0
  exact ⟨hA, hB, hC, c1.trans d1, c2.trans d2⟩

/-- When the program has come to its end, every `Wait` of it has returned. -/
theorem finished_count {ε : Type} {N M : Nat} {s : State ε} (hC : InvC N M s)
    (hf : s.finishedRun) : s.finished.length = N := by
  have := hC.waits
  rw [hf.1, hf.2] at this
  simpa [countWaits] using this

/-- When the program has come to its end, the task calls that returned are as many as the
calls of `AddTask`. -/
theorem executed_count {ε : Type} {N M : Nat} {s : State ε} (hB : InvB s) (hC : InvC N M s)
    (hf : s.finishedRun) :
    (s.finished.map (fun g => g.1.executed.length)).sum + s.log.submitted.length = M := by
  have h := hC.adds
  rw [hf.2] at h
  simp only [countAdds, add_zero, submittedBefore] at h
  have e : s.finished.map (fun g => g.1.executed.length)
      = s.finished.map (fun g => g.1.submitted.length) := by
    apply List.map_congr_left
    intro g hg
    have := (good_once (hB.past g hg)).2.2.2.2.1
    simpa [Log.ids] using this
  rw [e]
  exact h

/-! ## Theorems: the history and the tasks -/

theorem ran_mono {ε : Type} {threads : Int} {tasks tasks' : List (Nat × Task ε)}
    (h : ∀ x ∈ tasks, x ∈ tasks') {x : Nat × Int × Option ε} (hx : Ran threads tasks x) :
    Ran threads tasks' x := by
  obtain ⟨task, h1, h2⟩ := hx
  exact ⟨task, h _ h1, h2⟩

theorem running_mono {ε : Type} {tasks tasks' : List (Nat × Task ε)}
    (h : ∀ x ∈ tasks, x ∈ tasks') {idx : Int} {id : Nat} {p : Proc ε}
    (hx : Running tasks idx id p) : Running tasks' idx id p := by
  obtain ⟨task, h1, h2⟩ := hx
  exact ⟨task, h _ h1, h2⟩

theorem workerOk_mono {ε : Type} {tasks tasks' : List (Nat × Task ε)}
    (h : ∀ x ∈ tasks, x ∈ tasks') {i : Nat} {w : Worker ε}
    (hx : Worker.ok tasks i w) : Worker.ok tasks' i w := by
  cases w <;> first | trivial | exact running_mono h hx

theorem callerOk_mono {ε : Type} {tasks tasks' : List (Nat × Task ε)}
    (h : ∀ x ∈ tasks, x ∈ tasks') {c : Caller ε}
    (hx : Caller.ok tasks c) : Caller.ok tasks' c := by
  cases c <;> first | trivial | exact running_mono h hx

theorem workers_set {ε : Type} {tasks : List (Nat × Task ε)} {ws : List (Worker ε)} {i : Nat}
    {w' : Worker ε} (h : ∀ (j : Nat) (w : Worker ε), ws[j]? = some w → Worker.ok tasks j w)
    (hi : Worker.ok tasks i w') :
    ∀ (j : Nat) (w : Worker ε), (ws.set i w')[j]? = some w → Worker.ok tasks j w := by
  intro j w hw
  by_cases hij : i = j
  · subst hij
    rw [List.getElem?_set] at hw
    simp only [if_true] at hw
    split at hw
    · cases hw; exact hi
    · cases hw
  · rw [List.getElem?_set_ne hij] at hw
    exact h j w hw

theorem running_probe {ε : Type} {tasks : List (Nat × Task ε)} {idx : Int} {id : Nat}
    {k : Option ε → Proc ε} (o : Option ε) (h : Running tasks idx id (.probe k)) :
    Running tasks idx id (k o) := by
  obtain ⟨task, h1, h2⟩ := h
  exact ⟨task, h1, fun r hr => h2 r (Proc.Returns.probe k o r hr)⟩

theorem running_ret {ε : Type} {threads : Int} {tasks : List (Nat × Task ε)} {idx : Int}
    {id : Nat} {r : Option ε} (h : Running tasks idx id (.ret r)) (h0 : 0 ≤ idx)
    (h1 : idx < threads) : Ran threads tasks (id, idx, r) := by
  obtain ⟨task, h2, h3⟩ := h
  exact ⟨task, h2, h3 r (Proc.Returns.ret r), h0, h1⟩

/-- A transition that submits nothing and ends no generation keeps the tie between
history and tasks, provided the thread that moved is still inside a submitted
task if it is inside one, and what it added to `executed` is a return of a
submitted task. -/
theorem invT_frame {ε : Type} {P : List (Task ε)} {s s' : State ε} (hI : InvT P s)
    (h1 : s'.threads = s.threads) (h2 : s'.log.tasks = s.log.tasks)
    (h3 : s'.log.submitted = s.log.submitted) (h4 : s'.finished = s.finished)
    (h5 : progTasks s'.prog = progTasks s.prog)
    (h6 : ∀ x ∈ s'.channel.buf, x ∈ s.channel.buf)
    (h7 : Caller.ok s.log.tasks s'.caller)
    (h8 : ∀ (i : Nat) (w : Worker ε), s'.workers[i]? = some w → Worker.ok s.log.tasks i w)
    (h9 : ∀ x ∈ s'.log.executed, x ∈ s.log.executed ∨ Ran s.threads s.log.tasks x) :
    InvT P s' := by
  constructor
  · rw [h2, h3]; exact hI.ids
  · intro x hx; rw [h2]; exact hI.buf x (h6 x hx)
  · rw [h2]; exact h7
  · rw [h2]; exact h8
  · intro x hx
    rw [h1, h2]
    rcases h9 x hx with h | h
    · exact hI.executed x h
    · exact h
  · rw [h4, h1]; exact hI.past
  · rw [h4, h2, h5]; exact hI.prog

theorem stepWorker_invT {ε : Type} {P : List (Task ε)} {s s' : State ε} {i : Nat}
    (hA : InvA s) (hI : InvT P s) (h : stepWorker s i = some s') : InvT P s' := by
  have hlen := hA.workers_len
  have hidx : ∀ w, s.workers[i]? = some w → (0 : Int) ≤ (i : Int) + 1 ∧ (i : Int) + 1 < s.threads := by
    intro w hw
    have := (List.getElem?_eq_some_iff.1 hw).1
    omega
  unfold stepWorker at h
  split at h
  · cases h
  · rename_i hw
    split at h
    · rename_i id task rest hb
      cases h
      refine invT_frame hI rfl rfl rfl rfl rfl ?_ hI.caller ?_ (fun x hx => Or.inl hx)
      · intro x hx
        show x ∈ s.channel.buf
        rw [hb]; exact List.mem_cons_of_mem _ hx
      · refine workers_set hI.workers ?_
        exact ⟨task, hI.buf _ (by rw [hb]; exact List.mem_cons_self _ _), fun r hr => hr⟩
    · split at h
      · split at h
        · cases h
          exact invT_frame hI rfl rfl rfl rfl rfl (fun x hx => hx) hI.caller hI.workers
            (fun x hx => Or.inl hx)
        · cases h
          exact invT_frame hI rfl rfl rfl rfl rfl (fun x hx => hx) hI.caller
            (workers_set hI.workers trivial) (fun x hx => Or.inl hx)
      · cases h
  · rename_i id k hw
    cases h
    exact invT_frame hI rfl rfl rfl rfl rfl (fun x hx => hx) hI.caller
      (workers_set hI.workers (running_probe _ (hI.workers i _ hw))) (fun x hx => Or.inl hx)
  · rename_i id hw
    cases h
    refine invT_frame hI rfl rfl rfl rfl rfl (fun x hx => hx) hI.caller
      (workers_set hI.workers trivial) ?_
    intro x hx
    rcases List.mem_append.1 hx with hx | hx
    · exact Or.inl hx
    · rw [List.mem_singleton] at hx
      subst hx
      exact Or.inr (running_ret (hI.workers i _ hw) (hidx _ hw).1 (hidx _ hw).2)
  · rename_i id err hw
    cases h
    refine invT_frame hI rfl rfl rfl rfl rfl (fun x hx => hx) hI.caller
      (workers_set hI.workers trivial) ?_
    intro x hx
    rcases List.mem_append.1 hx with hx | hx
    · exact Or.inl hx
    · rw [List.mem_singleton] at hx
      subst hx
      exact Or.inr (running_ret (hI.workers i _ hw) (hidx _ hw).1 (hidx _ hw).2)
  · rename_i err hw
    cases h
    exact invT_frame hI rfl rfl rfl rfl rfl (fun x hx => hx) hI.caller
      (workers_set hI.workers trivial) (fun x hx => Or.inl hx)
  · cases h

theorem stepCaller_invT {ε : Type} {P : List (Task ε)} {s s' : State ε}
    (hA : InvA s) (hI : InvT P s) (h : stepCaller s = some s') : InvT P s' := by
  have hpos := hA.threads_pos
  have hcal := hI.caller
  unfold stepCaller at h
  split at h
  · rename_i hc
    split at h
    · cases h
    · rename_i task rest hp
      split at h
      · cases h
        exact invT_frame hI rfl rfl rfl rfl rfl (fun x hx => hx) hI.caller hI.workers
          (fun x hx => Or.inl hx)
      · split at h
        · cases h
          have hsub : ∀ x ∈ s.log.tasks, x ∈ s.log.tasks ++ [(s.nextId, task)] :=
            fun x hx => List.mem_append_left _ hx
          constructor
          · show (s.log.tasks ++ [(s.nextId, task)]).map Prod.fst = s.log.submitted ++ [s.nextId]
            rw [List.map_append, hI.ids]; rfl
          · intro x hx
            show x ∈ s.log.tasks ++ [(s.nextId, task)]
            rcases List.mem_append.1 hx with hx | hx
            · exact List.mem_append_left _ (hI.buf x hx)
            · exact List.mem_append_right _ hx
          · exact callerOk_mono hsub hI.caller
          · exact fun i w hw => workerOk_mono hsub (hI.workers i w hw)
          · exact fun x hx => ran_mono hsub (hI.executed x hx)
          · exact hI.past
          · show tasksBefore s.finished ++ (s.log.tasks ++ [(s.nextId, task)]).map Prod.snd
              ++ progTasks rest = P
            have := hI.prog
            rw [hp] at this
            rw [← this]
            simp [progTasks]
        · cases h
    · rename_i rest hp
      cases h
      refine invT_frame hI rfl rfl rfl rfl ?_ (fun x hx => hx) trivial hI.workers
        (fun x hx => Or.inl hx)
      show progTasks rest = progTasks s.prog
      rw [hp]; rfl
  · rename_i hc
    split at h
    · rename_i id task rest hb
      cases h
      refine invT_frame hI rfl rfl rfl rfl rfl ?_ ?_ hI.workers (fun x hx => Or.inl hx)
      · intro x hx
        show x ∈ s.channel.buf
        rw [hb]; exact List.mem_cons_of_mem _ hx
      · exact ⟨task, hI.buf _ (by rw [hb]; exact List.mem_cons_self _ _), fun r hr => hr⟩
    · split at h
      · cases h
        exact invT_frame hI rfl rfl rfl rfl rfl (fun x hx => hx) hI.caller hI.workers
          (fun x hx => Or.inl hx)
      · cases h
        exact invT_frame hI rfl rfl rfl rfl rfl (fun x hx => hx) trivial hI.workers
          (fun x hx => Or.inl hx)
  · rename_i id k hc
    cases h
    rw [hc] at hcal
    exact invT_frame hI rfl rfl rfl rfl rfl (fun x hx => hx) (running_probe _ hcal) hI.workers
      (fun x hx => Or.inl hx)
  · rename_i id hc
    cases h
    rw [hc] at hcal
    refine invT_frame hI rfl rfl rfl rfl rfl (fun x hx => hx) trivial hI.workers ?_
    intro x hx
    rcases List.mem_append.1 hx with hx | hx
    · exact Or.inl hx
    · rw [List.mem_singleton] at hx
      subst hx
      exact Or.inr (running_ret hcal (le_refl 0) (by omega))
  · rename_i id err hc
    cases h
    rw [hc] at hcal
    refine invT_frame hI rfl rfl rfl rfl rfl (fun x hx => hx) trivial hI.workers ?_
    intro x hx
    rcases List.mem_append.1 hx with hx | hx
    · exact Or.inl hx
    · rw [List.mem_singleton] at hx
      subst hx
      exact Or.inr (running_ret hcal (le_refl 0) (by omega))
  · rename_i err hc
    cases h
    exact invT_frame hI rfl rfl rfl rfl rfl (fun x hx => hx) trivial hI.workers
      (fun x hx => Or.inl hx)
  · rename_i hc
    split at h
    · cases h
      exact invT_frame hI rfl rfl rfl rfl rfl (fun x hx => hx) hI.caller hI.workers
        (fun x hx => Or.inl hx)
    · cases h
      exact invT_frame hI rfl rfl rfl rfl rfl (fun x hx => hx) trivial hI.workers
        (fun x hx => Or.inl hx)
  · rename_i hc
    split at h
    · cases h
      exact invT_frame hI rfl rfl rfl rfl rfl (fun x hx => hx) hI.caller hI.workers
        (fun x hx => Or.inl hx)
    · cases h
      exact invT_frame hI rfl rfl rfl rfl rfl (fun x hx => hx) trivial hI.workers
        (fun x hx => Or.inl hx)
  · rename_i hc
    split at h
    · cases h
      exact invT_frame hI rfl rfl rfl rfl rfl (fun x hx => hx) trivial hI.workers
        (fun x hx => Or.inl hx)
    · cases h
  · rename_i hc
    cases h
    exact invT_frame hI rfl rfl rfl rfl rfl (fun x hx => hx) trivial hI.workers
      (fun x hx => Or.inl hx)
  · rename_i err hc
    cases h
    constructor
    · rfl
    · intro x hx
      cases hx
    · trivial
    · intro i w hw
      have hw2 : (List.replicate (s.threads - 1).toNat (Worker.range : Worker ε))[i]? = some w := hw
      rw [List.getElem?_replicate] at hw2
      split at hw2
      · cases hw2; trivial
      · cases hw2
    · intro x hx
      cases hx
    · intro g hg
      rcases List.mem_append.1 hg with hg | hg
      · exact hI.past g hg
      · rw [List.mem_singleton] at hg
        subst hg
        exact ⟨hI.ids, hI.executed⟩
    · show tasksBefore (s.finished ++ [(s.log, err)]) ++ ([] : List (Nat × Task ε)).map Prod.snd
        ++ progTasks s.prog = P
      rw [← hI.prog]
      simp [tasksBefore]

theorem step_invT {ε : Type} {P : List (Task ε)} {s s' : State ε} {tid : Nat} (hA : InvA s)
    (hI : InvT P s) (h : step s tid = some s') : InvT P s' := by
  unfold step at h
  split at h
  · cases h
  · cases tid with
    | zero => exact stepCaller_invT hA hI h
    | succ i => exact stepWorker_invT hA hI h

theorem run_invT {ε : Type} {P : List (Task ε)} : ∀ (sched : List Nat) (s s' : State ε),
    InvA s → InvB s → InvT P s → run s sched = some s' → InvT P s' := by
  intro sched
  induction sched with
  | nil =>
    intro s s' hA hB hT h
    simp only [run, Option.some.injEq] at h
    subst h
    exact hT
  | cons tid rest ih =>
    intro s s' hA hB hT h
    simp only [run] at h
    split at h
    · cases h
    · rename_i s1 hs1
      obtain ⟨hA1, hB1⟩ := step_inv hA hB hs1
      exact ih s1 s' hA1 hB1 (step_invT hA hT hs1) h

theorem start_invT {ε : Type} {threads bufsize : Int} {prog : List (Op ε)} {s : State ε}
    (h : start threads bufsize prog = Except.ok s) : InvT (progTasks prog) s := by
  unfold start NewThreadPool at h
  by_cases h1 : threads < 1
  · simp [h1, Except.map] at h
  · by_cases h2 : bufsize < 1
    · simp [h1, h2, Except.map] at h
    · simp only [h1, h2, if_false, Except.map, Except.ok.injEq] at h
      subst h
      constructor
      · rfl
      · intro x hx; cases hx
      · trivial
      · intro i w hw
        have hw2 : (List.replicate (threads - 1).toNat (Worker.range : Worker ε))[i]? = some w := hw
        rw [List.getElem?_replicate] at hw2
        split at hw2
        · cases hw2; trivial
        · cases hw2
      · intro x hx; cases hx
      · intro g hg; cases hg
      · simp [tasksBefore, Launch]

/-- Every state reached from a new pool keeps the tie between the history and the tasks
of the program. -/
theorem reach_invT {ε : Type} {threads bufsize : Int} {prog : List (Op ε)} {s0 s : State ε}
    (h0 : start threads bufsize prog = Except.ok s0)
    {sched : List Nat} (hrun : run s0 sched = some s) : InvT (progTasks prog) s := by
  obtain ⟨hA0, hB0⟩ := start_inv h0
  exact run_invT sched s0 s hA0 hB0 (start_invT h0) hrun

/-- Two entries of a list of tasks without repeated serial numbers that have the same
serial number are the same task. -/
theorem task_unique {ε : Type} : ∀ (ts : List (Nat × Task ε)), (ts.map Prod.fst).Nodup →
    ∀ (id : Nat) (a b : Task ε), (id, a) ∈ ts → (id, b) ∈ ts → a = b := by
  intro ts
  induction ts with
  | nil => intro _ id a b ha; cases ha
  | cons t rest ih =>
    intro hn id a b ha hb
    rw [List.map_cons, List.nodup_cons] at hn
    rcases List.mem_cons.1 ha with ha | ha
    · rcases List.mem_cons.1 hb with hb | hb
      · rw [← ha] at hb
        exact (Prod.mk.inj hb).2.symm
      · exfalso
        apply hn.1
        rw [← ha]
        exact List.mem_map.2 ⟨(id, b), hb, rfl⟩
    · rcases List.mem_cons.1 hb with hb | hb
      · exfalso
        apply hn.1
        rw [← hb]
        exact List.mem_map.2 ⟨(id, a), ha, rfl⟩
      · exact ih hn.2 id a b ha hb

/-- When one serial number occurs in `executed`, only once, with the result `some e`, and
every other entry has the result `none`, the errors returned are `[e]`. -/
theorem errors_single {ε : Type} (id : Nat) (e : ε) : ∀ (ex : List (Nat × Int × Option ε)),
    (ex.map (fun x => x.1)).Nodup → id ∈ ex.map (fun x => x.1) →
    (∀ x ∈ ex, x.1 = id → x.2.2 = some e) → (∀ x ∈ ex, x.1 ≠ id → x.2.2 = none) →
    ex.filterMap (fun x => x.2.2) = [e] := by
  intro ex
  induction ex with
  | nil => intro _ h; cases h
  | cons x rest ih =>
    intro hn hid h1 h2
    rw [List.map_cons, List.nodup_cons] at hn
    by_cases hx : x.1 = id
    · have hrest : rest.filterMap (fun x => x.2.2) = [] := by
        rw [List.filterMap_eq_nil_iff]
        intro y hy
        apply h2 y (List.mem_cons_of_mem _ hy)
        intro hy1
        apply hn.1
        rw [hx, ← hy1]
        exact List.mem_map_of_mem (fun x => x.1) hy
      rw [List.filterMap_cons, h1 x (List.mem_cons_self _ _) hx, hrest]
    · rw [List.filterMap_cons, h2 x (List.mem_cons_self _ _) hx]
      apply ih hn.2
      · rw [List.map_cons] at hid
        rcases List.mem_cons.1 hid with hid | hid
        · exact absurd hid.symm hx
        · exact hid
      · exact fun y hy => h1 y (List.mem_cons_of_mem _ hy)
      · exact fun y hy => h2 y (List.mem_cons_of_mem _ hy)

/-- Two lists with the same serial numbers in the same order, whose entries agree on
a result whenever they agree on the serial number, have the same results. -/
theorem results_eq {ε : Type} (res : Nat × Task ε → Option ε) :
    ∀ (ex : List (Nat × Int × Option ε)) (ts : List (Nat × Task ε)),
    ex.map (fun x => x.1) = ts.map Prod.fst →
    (∀ x ∈ ex, ∀ t ∈ ts, x.1 = t.1 → x.2.2 = res t) →
    ex.filterMap (fun x => x.2.2) = ts.filterMap res := by
  intro ex
  induction ex with
  | nil =>
    intro ts h _
    cases ts with
    | nil => rfl
    | cons t rest => cases h
  | cons x rest ih =>
    intro ts h hx
    cases ts with
    | nil => cases h
    | cons t trest =>
      rw [List.map_cons, List.map_cons, List.cons.injEq] at h
      rw [List.filterMap_cons, List.filterMap_cons,
        hx x (List.mem_cons_self _ _) t (List.mem_cons_self _ _) h.1,
        ih trest h.2 (fun y hy u hu => hx y (List.mem_cons_of_mem _ hy) u (List.mem_cons_of_mem _ hu))]

/-- What the tie between history and tasks gives for a generation that has ended. -/
theorem good_bodies {ε : Type} {threads : Int} {g : Log ε × Option ε} (hg : Good g)
    (hids : g.1.tasks.map Prod.fst = g.1.submitted)
    (hran : ∀ x ∈ g.1.executed, Ran threads g.1.tasks x) :
    ((∀ x ∈ g.1.tasks, ∀ i r, Proc.Returns (x.2 i) r → r = none) → g.2 = none) ∧
    (∀ (id : Nat) (task : Task ε) (e : ε), (id, task) ∈ g.1.tasks →
      (∀ i r, Proc.Returns (task i) r → r = some e) →
      (∀ x ∈ g.1.tasks, x.1 ≠ id → ∀ i r, Proc.Returns (x.2 i) r → r = none) →
      g.2 = some e) ∧
    (∀ e, g.2 = some e →
      ∃ x ∈ g.1.tasks, ∃ i, 0 ≤ i ∧ i < threads ∧ Proc.Returns (x.2 i) (some e)) ∧
    (∀ x ∈ g.1.tasks, ∃ i r, (x.1, i, r) ∈ g.1.executed ∧ Proc.Returns (x.2 i) r ∧
      0 ≤ i ∧ i < threads) ∧
    (threads = 1 → g.1.ids = g.1.submitted → ∀ res : Nat × Task ε → Option ε,
      (∀ x ∈ g.1.tasks, ∀ r, Proc.Returns (x.2 0) r → r = res x) →
      g.1.errors = g.1.tasks.filterMap res) := by
  obtain ⟨r1, r2, r3, r4⟩ := good_result hg
  obtain ⟨hperm, hnd, -⟩ := good_once hg
  have hnd2 : (g.1.tasks.map Prod.fst).Nodup := by rw [hids]; exact hnd
  refine ⟨?_, ?_, ?_, ?_, ?_⟩
  · intro h
    apply r2
    apply errors_nil_of_all_none
    intro x hx
    obtain ⟨task, h1, h2, -⟩ := hran x hx
    exact h _ h1 _ _ h2
  · intro id task e hmem he hrest
    apply r4
    refine errors_single id e g.1.executed ?_ ?_ ?_ ?_
    · exact (hperm.nodup_iff).2 hnd
    · apply hperm.symm.subset
      rw [← hids]
      exact List.mem_map_of_mem Prod.fst hmem
    · intro x hx hx1
      obtain ⟨task', h1, h2, -⟩ := hran x hx
      rw [hx1] at h1
      rw [task_unique _ hnd2 id task task' hmem h1] at he
      exact he _ _ h2
    · intro x hx hx1
      obtain ⟨task', h1, h2, -⟩ := hran x hx
      exact hrest _ h1 hx1 _ _ h2
  · intro e he
    have hne : g.1.errors ≠ [] := by
      intro h0
      rw [r2 h0] at he
      cases he
    obtain ⟨e', h1, h2⟩ := r3 hne
    rw [he] at h1
    cases h1
    unfold Log.errors at h2
    rw [List.mem_filterMap] at h2
    obtain ⟨x, hx, hx2⟩ := h2
    obtain ⟨task, t1, t2, t3, t4⟩ := hran x hx
    exact ⟨_, t1, x.2.1, t3, t4, by rw [← hx2]; exact t2⟩
  · intro x hx
    have h1 : x.1 ∈ g.1.ids := by
      apply hperm.symm.subset
      rw [← hids]
      exact List.mem_map_of_mem Prod.fst hx
    unfold Log.ids at h1
    rw [List.mem_map] at h1
    obtain ⟨y, hy, hy1⟩ := h1
    obtain ⟨task, t1, t2, t3, t4⟩ := hran y hy
    rw [hy1] at t1
    have e := task_unique _ hnd2 x.1 x.2 task hx t1
    refine ⟨y.2.1, y.2.2, ?_, by rw [e]; exact t2, t3, t4⟩
    rw [← hy1]
    exact hy
  · intro ht hfifo res hres
    unfold Log.errors
    apply results_eq res
    · rw [hids]; exact hfifo
    · intro x hx t htm hxt
      obtain ⟨task, t1, t2, t3, t4⟩ := hran x hx
      have h0 : x.2.1 = 0 := by omega
      rw [h0] at t2
      have ht1 : (x.1, t.2) ∈ g.1.tasks := by rw [hxt]; exact htm
      rw [← task_unique _ hnd2 x.1 t.2 task ht1 t1] at t2
      exact hres t htm _ t2

/-- C1: take a pool made by `NewThreadPool(threads, bufsize)`, any list of `AddTask` and
`Wait` calls made by the caller (on a pool with one thread, no more `AddTask`
calls between two `Wait` than the channel holds, since nobody else receives),
and any schedule of the threads.  In every state reached, for each `Wait` that
has returned: the value returned is the argument of the last `setError` call of
its generation, `none` if no call was made; it is `none` if no task call of the
generation returned an error, otherwise it is one of the errors returned; if
exactly one task call returned an error, it is that error; with one thread the
tasks ran in the order submitted and the value is the error of the last task
that failed.  The task calls are calls of the tasks given to `AddTask`: every
entry of `executed` is a value that the body submitted under that serial number
returns when called with the thread index of the entry, one of
`0 .. threads-1`.  Hence, in terms of the bodies: if every task submitted in
the generation can only return `nil`, `Wait` returned `none`; if one task
submitted can only return the error `e` and every other one can only return
`nil`, `Wait` returned `e`; an error returned by `Wait` is one that a submitted
task returns at some thread index; with one thread, when each task returns a
fixed value at thread index `0`, `Wait` returned the last error in the order of
submission.  The tasks submitted so far and those still to submit are the
arguments of the `AddTask` calls of the program, in order.  Moreover no thread
has panicked, some thread can move unless the program is at its end, no run
from the state is infinite, some run reaches the end, and at the end every
`Wait` of the program has returned. -/
theorem Wait_returns_last_recorded {ε : Type} (threads bufsize : Int) (prog : List (Op ε))
    (s0 : State ε) (h0 : start threads bufsize prog = Except.ok s0)
    (hfit : threads = 1 → fits bufsize bufsize prog = true)
    (sched : List Nat) (s : State ε) (hrun : run s0 sched = some s) :
    (∀ g ∈ s.finished,
      g.2 = g.1.recorded.getLast? ∧
      (g.1.errors = [] → g.2 = none) ∧
      (g.1.errors ≠ [] → ∃ e, g.2 = some e ∧ e ∈ g.1.errors) ∧
      (∀ e, g.1.errors = [e] → g.2 = some e) ∧
      (threads = 1 →
        g.1.ids = g.1.submitted ∧ g.1.recorded = g.1.errors ∧ g.2 = g.1.errors.getLast?) ∧
      (g.1.tasks.map Prod.fst = g.1.submitted ∧ ∀ x ∈ g.1.executed, Ran threads g.1.tasks x) ∧
      ((∀ x ∈ g.1.tasks, ∀ i r, Proc.Returns (x.2 i) r → r = none) → g.2 = none) ∧
      (∀ (id : Nat) (task : Task ε) (e : ε), (id, task) ∈ g.1.tasks →
        (∀ i r, Proc.Returns (task i) r → r = some e) →
        (∀ x ∈ g.1.tasks, x.1 ≠ id → ∀ i r, Proc.Returns (x.2 i) r → r = none) →
        g.2 = some e) ∧
      (∀ e, g.2 = some e →
        ∃ x ∈ g.1.tasks, ∃ i, 0 ≤ i ∧ i < threads ∧ Proc.Returns (x.2 i) (some e)) ∧
      (threads = 1 → ∀ res : Nat × Task ε → Option ε,
        (∀ x ∈ g.1.tasks, ∀ r, Proc.Returns (x.2 0) r → r = res x) →
        g.2 = (g.1.tasks.filterMap res).getLast?)) ∧
    tasksBefore s.finished ++ s.log.tasks.map Prod.snd ++ progTasks s.prog = progTasks prog ∧
    s.panicked = false ∧
    (¬ s.finishedRun → ∃ tid s', step s tid = some s') ∧
    Acc Next s ∧
    (∃ sched' s', run s sched' = some s' ∧ s'.finishedRun) ∧
    (s.finishedRun → s.finished.length = countWaits prog) := by
  obtain ⟨hA, hB, hC, ht, -⟩ := reach_facts h0 hfit hrun
  have hT := reach_invT h0 hrun
  refine ⟨?_, hT.prog, hA.notPanicked, fun hf => progress hA hC hf, next_wf.apply s,
    reaches_end s hA hB hC, fun hf => finished_count hC hf⟩
  intro g hg
  obtain ⟨r1, r2, r3, r4⟩ := good_result (hB.past g hg)
  obtain ⟨t1, t2⟩ := hT.past g hg
  rw [ht] at t2
  obtain ⟨b1, b2, b3, -, b5⟩ := good_bodies (hB.past g hg) t1 t2
  refine ⟨r1, r2, r3, r4, ?_, ⟨t1, t2⟩, b1, b2, b3, ?_⟩
  · intro h1
    obtain ⟨f1, f2⟩ := hB.pastFifo (ht.trans h1) g hg
    exact ⟨f1, f2.symm, by rw [r1, f2]⟩
  · intro h1 res hres
    obtain ⟨f1, f2⟩ := hB.pastFifo (ht.trans h1) g hg
    rw [r1, ← f2, b5 h1 f1 res hres]

/-- C2: take a pool made by `NewThreadPool(threads, bufsize)`, any list of `AddTask` and
`Wait` calls made by the caller (fitting the channel when there is one thread)
and any schedule.  In every state reached, for each `Wait` that has returned:
the task calls that returned in its generation are, up to order, the tasks
submitted in it, each exactly once and no other, whatever the tasks returned;
each error returned was passed to `setError` once; every entry of `executed` is
a value that the body submitted under that serial number returns when called
with the thread index of the entry, one of `0 .. threads-1`; and every task
submitted in the generation has such an entry.  In the running generation no
task has been executed twice, none that was not submitted, and every entry of
`executed` is again a return of the submitted body.  The tasks submitted so far
and those still to submit are the arguments of the `AddTask` calls of the
program, in order.  When the program is at its end, the task calls that
returned in the generations ended by a `Wait`, with the tasks submitted after
the last `Wait`, are as many as the calls of `AddTask` in the program.
Moreover some thread can move unless the program is at its end, no run is
infinite, and some run reaches the end. -/
theorem tasks_executed_exactly_once {ε : Type} (threads bufsize : Int) (prog : List (Op ε))
    (s0 : State ε) (h0 : start threads bufsize prog = Except.ok s0)
    (hfit : threads = 1 → fits bufsize bufsize prog = true)
    (sched : List Nat) (s : State ε) (hrun : run s0 sched = some s) :
    (∀ g ∈ s.finished,
      g.1.ids.Perm g.1.submitted ∧ g.1.submitted.Nodup ∧
      (∀ id ∈ g.1.submitted, g.1.ids.count id = 1) ∧
      (∀ id ∈ g.1.ids, id ∈ g.1.submitted) ∧
      g.1.ids.length = g.1.submitted.length ∧
      g.1.recorded.Perm g.1.errors ∧
      g.1.tasks.map Prod.fst = g.1.submitted ∧
      (∀ x ∈ g.1.executed, Ran threads g.1.tasks x) ∧
      (∀ x ∈ g.1.tasks, ∃ i r, (x.1, i, r) ∈ g.1.executed ∧ Proc.Returns (x.2 i) r ∧
        0 ≤ i ∧ i < threads)) ∧
    (s.log.ids.Nodup ∧ (∀ id ∈ s.log.ids, id ∈ s.log.submitted) ∧
      s.log.tasks.map Prod.fst = s.log.submitted ∧
      ∀ x ∈ s.log.executed, Ran threads s.log.tasks x) ∧
    tasksBefore s.finished ++ s.log.tasks.map Prod.snd ++ progTasks s.prog = progTasks prog ∧
    (s.finishedRun →
      (s.finished.map (fun g => g.1.executed.length)).sum + s.log.submitted.length
        = countAdds prog) ∧
    (¬ s.finishedRun → ∃ tid s', step s tid = some s') ∧
    Acc Next s ∧
    (∃ sched' s', run s sched' = some s' ∧ s'.finishedRun) := by
  obtain ⟨hA, hB, hC, ht, -⟩ := reach_facts h0 hfit hrun
  have hT := reach_invT h0 hrun
  refine ⟨?_, ?_, hT.prog, fun hf => executed_count hB hC hf,
    fun hf => progress hA hC hf, next_wf.apply s, reaches_end s hA hB hC⟩
  · intro g hg
    obtain ⟨g1, g2, g3, g4, g5, g6⟩ := good_once (hB.past g hg)
    obtain ⟨t1, t2⟩ := hT.past g hg
    rw [ht] at t2
    exact ⟨g1, g2, g3, g4, g5, g6, t1, t2, (good_bodies (hB.past g hg) t1 t2).2.2.2.1⟩
  · have hle : (s.log.ids : Multiset Nat) ≤ (s.log.submitted : Multiset Nat) := by
      rw [hB.tasks, add_assoc, add_assoc]
      exact Multiset.le_add_right _ _
    refine ⟨?_, ?_, hT.ids, ?_⟩
    · exact Multiset.coe_nodup.1 (Multiset.nodup_of_le hle (Multiset.coe_nodup.2 hB.nodup))
    · intro id hid
      exact Multiset.mem_coe.1 (Multiset.mem_of_le hle (Multiset.mem_coe.2 hid))
    · have := hT.executed
      rw [ht] at this
      exact this

/-- C3: the transition that ends `Wait` (`t.Launch()` and `return err`) leaves, from any
state, `errmsg = nil`, a new empty open channel of capacity `bufsize`, the same
`threads` and `bufsize`, the caller between two calls, and the generation just
ended filed with the value returned.  In every state reached from a pool made
by `NewThreadPool(threads, bufsize)`: `threads`, `bufsize` and the capacity of
the channel are those given at creation; while the caller is between two calls
and has not submitted anything since the last `Wait`, `errmsg` is `nil` and the
channel is empty and open; a `Wait` whose generation had no failing task call
returned `none`, also when the `Wait` before it returned an error; and the
same in terms of the bodies: a `Wait` whose generation was given only tasks
that can only return `nil` returned `none`, also when the `Wait` before it
returned an error. -/
theorem Wait_leaves_fresh_generation {ε : Type} (threads bufsize : Int) (prog : List (Op ε))
    (s0 : State ε) (h0 : start threads bufsize prog = Except.ok s0)
    (hfit : threads = 1 → fits bufsize bufsize prog = true)
    (sched : List Nat) (s : State ε) (hrun : run s0 sched = some s) :
    (∀ (t t' : State ε) (err : Option ε), t.caller = Caller.launch err → step t 0 = some t' →
      t'.errmsg = none ∧ t'.channel = { buf := [], cap := t.bufsize, closed := false } ∧
      t'.threads = t.threads ∧ t'.bufsize = t.bufsize ∧ t'.caller = Caller.idle ∧
      t'.log = { submitted := [], tasks := [], executed := [], recorded := [] } ∧
      t'.finished = t.finished ++ [(t.log, err)]) ∧
    (s.threads = threads ∧ s.bufsize = bufsize ∧ s.channel.cap = bufsize) ∧
    (s.caller.isIdle = true → s.log.submitted = [] →
      s.errmsg = none ∧ s.channel.buf = [] ∧ s.channel.closed = false) ∧
    (∀ g ∈ s.finished, (∀ x ∈ g.1.executed, x.2.2 = none) → g.2 = none) ∧
    (∀ (k : Nat) (g1 g2 : Log ε × Option ε), s.finished[k]? = some g1 →
      s.finished[k + 1]? = some g2 → g1.2 ≠ none →
      (∀ x ∈ g2.1.executed, x.2.2 = none) → g2.2 = none) ∧
    (∃ sched' s', run s sched' = some s' ∧ s'.finishedRun) ∧
    (∀ g ∈ s.finished,
      (∀ x ∈ g.1.tasks, ∀ i r, Proc.Returns (x.2 i) r → r = none) → g.2 = none) ∧
    (∀ (k : Nat) (g1 g2 : Log ε × Option ε), s.finished[k]? = some g1 →
      s.finished[k + 1]? = some g2 → g1.2 ≠ none →
      (∀ x ∈ g2.1.tasks, ∀ i r, Proc.Returns (x.2 i) r → r = none) → g2.2 = none) := by
  obtain ⟨hA, hB, hC, ht, hb⟩ := reach_facts h0 hfit hrun
  have hT := reach_invT h0 hrun
  have indep : ∀ g ∈ s.finished, (∀ x ∈ g.1.executed, x.2.2 = none) → g.2 = none := by
    intro g hg hx
    exact (good_result (hB.past g hg)).2.1 (errors_nil_of_all_none _ hx)
  have indep2 : ∀ g ∈ s.finished,
      (∀ x ∈ g.1.tasks, ∀ i r, Proc.Returns (x.2 i) r → r = none) → g.2 = none := by
    intro g hg
    exact (good_bodies (hB.past g hg) (hT.past g hg).1 (hT.past g hg).2).1
  refine ⟨?_, ⟨ht, hb, hA.cap_eq.trans hb⟩, ?_, indep, ?_, reaches_end s hA hB hC, indep2, ?_⟩
  · intro t t' err hc hstep
    unfold step at hstep
    split at hstep
    · cases hstep
    · simp only [stepCaller, hc, Option.some.injEq] at hstep
      subst hstep
      exact ⟨rfl, rfl, rfl, rfl, rfl, rfl, rfl⟩
  · intro hidle hsub
    have hcl := hA.closed_eq
    have htasks := hB.tasks
    have herrs := hB.errs
    have hlast := hB.last_write
    cases hc : s.caller with
    | idle =>
      rw [hc] at hcl htasks herrs
      rw [hsub] at htasks
      simp only [Caller.inflight, Caller.pending, Multiset.coe_nil, add_zero] at htasks herrs
      have h1 := htasks.symm
      rw [add_eq_zero, add_eq_zero] at h1
      obtain ⟨⟨h1, h2⟩, h3⟩ := h1
      have hex : s.log.executed = [] := by
        have : s.log.ids = [] := (Multiset.coe_eq_zero _).1 h1
        simpa [Log.ids] using this
      have hbuf : s.channel.buf = [] := by
        have := (Multiset.coe_eq_zero _).1 h3
        simpa using this
      have hrec : s.log.recorded = [] := by
        simp only [Log.errors, hex, List.filterMap_nil, Multiset.coe_nil] at herrs
        have h4 := herrs.symm
        rw [add_eq_zero] at h4
        exact (Multiset.coe_eq_zero _).1 h4.1
      refine ⟨by rw [hlast, hrec]; rfl, hbuf, by rw [hcl]; rfl⟩
    | select => rw [hc] at hidle; cases hidle
    | call id p => rw [hc] at hidle; cases hidle
    | seterr err => rw [hc] at hidle; cases hidle
    | close => rw [hc] at hidle; cases hidle
    | done => rw [hc] at hidle; cases hidle
    | wait => rw [hc] at hidle; cases hidle
    | read => rw [hc] at hidle; cases hidle
    | launch err => rw [hc] at hidle; cases hidle
  · intro k g1 g2 _ h2 _ hx
    exact indep g2 (List.mem_iff_getElem?.2 ⟨k + 1, h2⟩) hx
  · intro k g1 g2 _ h2 _ hx
    exact indep2 g2 (List.mem_iff_getElem?.2 ⟨k + 1, h2⟩) hx

/-- Instance of `Wait_returns_last_recorded`: two threads, a channel of capacity one, two
failing tasks.  The goroutine receives the first task, the caller runs the
second inside `Wait` and records its error first, the goroutine records the
error of the first task last: `Wait` returns the error of the first task. -/
theorem Wait_returns_last_recorded_witness :
    ∃ s0 s : State Nat,
      start 2 1 demoTwoFailures = Except.ok s0 ∧
      ((2 : Int) = 1 → fits 1 1 demoTwoFailures = true) ∧
      run s0 [0, 1, 0, 0, 0, 0, 0, 1, 1, 0, 0, 0, 1, 0, 0, 0] = some s ∧
      s.finished.map (fun g => (g.1.submitted, g.1.executed, g.1.recorded, g.2))
        = [([0, 1], [(1, 0, some 2), (0, 1, some 1)], [2, 1], some 1)] ∧
      ((∀ g ∈ s.finished,
        g.2 = g.1.recorded.getLast? ∧
        (g.1.errors = [] → g.2 = none) ∧
        (g.1.errors ≠ [] → ∃ e, g.2 = some e ∧ e ∈ g.1.errors) ∧
        (∀ e, g.1.errors = [e] → g.2 = some e) ∧
        ((2 : Int) = 1 →
          g.1.ids = g.1.submitted ∧ g.1.recorded = g.1.errors ∧ g.2 = g.1.errors.getLast?) ∧
        (g.1.tasks.map Prod.fst = g.1.submitted ∧ ∀ x ∈ g.1.executed, Ran 2 g.1.tasks x) ∧
        ((∀ x ∈ g.1.tasks, ∀ i r, Proc.Returns (x.2 i) r → r = none) → g.2 = none) ∧
        (∀ (id : Nat) (task : Task Nat) (e : Nat), (id, task) ∈ g.1.tasks →
          (∀ i r, Proc.Returns (task i) r → r = some e) →
          (∀ x ∈ g.1.tasks, x.1 ≠ id → ∀ i r, Proc.Returns (x.2 i) r → r = none) →
          g.2 = some e) ∧
        (∀ e, g.2 = some e →
          ∃ x ∈ g.1.tasks, ∃ i, 0 ≤ i ∧ i < 2 ∧ Proc.Returns (x.2 i) (some e)) ∧
        ((2 : Int) = 1 → ∀ res : Nat × Task Nat → Option Nat,
          (∀ x ∈ g.1.tasks, ∀ r, Proc.Returns (x.2 0) r → r = res x) →
          g.2 = (g.1.tasks.filterMap res).getLast?)) ∧
      tasksBefore s.finished ++ s.log.tasks.map Prod.snd ++ progTasks s.prog
        = progTasks demoTwoFailures ∧
      s.panicked = false ∧
      (¬ s.finishedRun → ∃ tid s', step s tid = some s') ∧
      Acc Next s ∧
      (∃ sched' s', run s sched' = some s' ∧ s'.finishedRun) ∧
      (s.finishedRun → s.finished.length = countWaits demoTwoFailures)) :=
  ⟨_, _, rfl, fun h => absurd h (by decide), rfl, rfl,
    Wait_returns_last_recorded 2 1 demoTwoFailures _ rfl (fun h => absurd h (by decide))
      [0, 1, 0, 0, 0, 0, 0, 1, 1, 0, 0, 0, 1, 0, 0, 0] _ rfl⟩

/-- Instance of `tasks_executed_exactly_once`: two threads, a channel of capacity one; the
goroutine runs the first task, the caller runs the second inside `Wait` and
returns from it first. -/
theorem tasks_executed_exactly_once_witness :
    ∃ s0 s : State Nat,
      start 2 1 demoOneFailure = Except.ok s0 ∧
      ((2 : Int) = 1 → fits 1 1 demoOneFailure = true) ∧
      run s0 [0, 1, 0, 0, 0, 0, 0, 1, 0, 0, 0, 1, 0, 0, 0] = some s ∧
      s.finished.map (fun g => (g.1.submitted, g.1.executed, g.2))
        = [([0, 1], [(1, 0, some 5), (0, 1, none)], some 5)] ∧
      ((∀ g ∈ s.finished,
        g.1.ids.Perm g.1.submitted ∧ g.1.submitted.Nodup ∧
        (∀ id ∈ g.1.submitted, g.1.ids.count id = 1) ∧
        (∀ id ∈ g.1.ids, id ∈ g.1.submitted) ∧
        g.1.ids.length = g.1.submitted.length ∧
        g.1.recorded.Perm g.1.errors ∧
        g.1.tasks.map Prod.fst = g.1.submitted ∧
        (∀ x ∈ g.1.executed, Ran 2 g.1.tasks x) ∧
        (∀ x ∈ g.1.tasks, ∃ i r, (x.1, i, r) ∈ g.1.executed ∧ Proc.Returns (x.2 i) r ∧
          0 ≤ i ∧ i < 2)) ∧
      (s.log.ids.Nodup ∧ (∀ id ∈ s.log.ids, id ∈ s.log.submitted) ∧
        s.log.tasks.map Prod.fst = s.log.submitted ∧
        ∀ x ∈ s.log.executed, Ran 2 s.log.tasks x) ∧
      tasksBefore s.finished ++ s.log.tasks.map Prod.snd ++ progTasks s.prog
        = progTasks demoOneFailure ∧
      (s.finishedRun →
        (s.finished.map (fun g => g.1.executed.length)).sum + s.log.submitted.length
          = countAdds demoOneFailure) ∧
      (¬ s.finishedRun → ∃ tid s', step s tid = some s') ∧
      Acc Next s ∧
      (∃ sched' s', run s sched' = some s' ∧ s'.finishedRun)) :=
  ⟨_, _, rfl, fun h => absurd h (by decide), rfl, rfl,
    tasks_executed_exactly_once 2 1 demoOneFailure _ rfl (fun h => absurd h (by decide))
      [0, 1, 0, 0, 0, 0, 0, 1, 0, 0, 0, 1, 0, 0, 0] _ rfl⟩

/-- Instance of `Wait_leaves_fresh_generation`: one thread, a channel of capacity one, a
cycle with a failing task followed by a cycle with a task that succeeds; the
first `Wait` returns the error, the second returns `none`. -/
theorem Wait_leaves_fresh_generation_witness :
    ∃ s0 s : State Nat,
      start 1 1 demoTwoCycles = Except.ok s0 ∧
      ((1 : Int) = 1 → fits 1 1 demoTwoCycles = true) ∧
      run s0 (List.replicate 21 0) = some s ∧
      s.finished.map Prod.snd = [some 7, none] ∧
      ((∀ (t t' : State Nat) (err : Option Nat), t.caller = Caller.launch err →
        step t 0 = some t' →
        t'.errmsg = none ∧ t'.channel = { buf := [], cap := t.bufsize, closed := false } ∧
        t'.threads = t.threads ∧ t'.bufsize = t.bufsize ∧ t'.caller = Caller.idle ∧
        t'.log = { submitted := [], tasks := [], executed := [], recorded := [] } ∧
        t'.finished = t.finished ++ [(t.log, err)]) ∧
      (s.threads = 1 ∧ s.bufsize = 1 ∧ s.channel.cap = 1) ∧
      (s.caller.isIdle = true → s.log.submitted = [] →
        s.errmsg = none ∧ s.channel.buf = [] ∧ s.channel.closed = false) ∧
      (∀ g ∈ s.finished, (∀ x ∈ g.1.executed, x.2.2 = none) → g.2 = none) ∧
      (∀ (k : Nat) (g1 g2 : Log Nat × Option Nat), s.finished[k]? = some g1 →
        s.finished[k + 1]? = some g2 → g1.2 ≠ none →
        (∀ x ∈ g2.1.executed, x.2.2 = none) → g2.2 = none) ∧
      (∃ sched' s', run s sched' = some s' ∧ s'.finishedRun) ∧
      (∀ g ∈ s.finished,
        (∀ x ∈ g.1.tasks, ∀ i r, Proc.Returns (x.2 i) r → r = none) → g.2 = none) ∧
      (∀ (k : Nat) (g1 g2 : Log Nat × Option Nat), s.finished[k]? = some g1 →
        s.finished[k + 1]? = some g2 → g1.2 ≠ none →
        (∀ x ∈ g2.1.tasks, ∀ i r, Proc.Returns (x.2 i) r → r = none) → g2.2 = none)) :=
  ⟨_, _, rfl, fun _ => rfl, rfl, rfl,
    Wait_leaves_fresh_generation 1 1 demoTwoCycles _ rfl (fun _ => rfl) (List.replicate 21 0) _
      rfl⟩

end ThreadPool
